import Mathlib

/-!
Verification of the Vacuum-Map-Converter pipeline.

The definitions below are a shallow embedding of the Python sources:
 - `custom_components/vacuum_map/map_converter.py` (`create_map_image`)
 - `src/ha_map_converter.py` (`create_map`)
 - `src/v2_map_converter.py` (`flood_fill`, `detect_rooms`, `create_perfect_map`)
 - `src/direct_approach.py` (`try_grid_format`, `process_file`)

Machine bytes are modelled as `Nat` (values 0..255 in practice), real-valued
world coordinates as `ℚ`, images either as row-major `List (List α)` rasters
or as total pixel functions `ℤ → ℤ → Color` where out-of-canvas writes matter.
-/

namespace VacuumMap

/-! ### Grid decoding

`create_map_image` (map_converter.py lines 54-85) and `create_map`
(ha_map_converter.py lines 31-62) classify raw bytes via three numpy masks:
`unknown_mask = (map_array == 127)`, `free_mask = (map_array == 0)`,
`obstacle_mask = ~(unknown_mask | free_mask)`, assigning light gray, white
and black respectively on an image initialised to zeros. -/

/-- Semantic cell states named by the spec. -/
inductive CellState where
  | Unknown : CellState
  | Free : CellState
  | Obstacle : CellState
deriving DecidableEq, Repr

/-- Modelled from the spec: `value == 127 → Unknown`, `value == 0 → Free`,
anything else `→ Obstacle`.  This is the spec-side classification used to
compare against the mask-based code. -/
def classifySpec (b : Nat) : CellState :=
  if b = 127 then .Unknown else if b = 0 then .Free else .Obstacle

/-- The legend used by the code: Unknown ↦ light gray, Free ↦ white,
Obstacle ↦ black. -/
def stateColor : CellState → Nat × Nat × Nat
  | .Unknown => (200, 200, 200)
  | .Free => (255, 255, 255)
  | .Obstacle => (0, 0, 0)

/-- Per-byte RGB value produced by the three sequential mask assignments in
`create_map` / `create_map_image`: the image starts at zeros, then the
`unknown_mask`, `free_mask` and `obstacle_mask` assignments are applied in
that source order. -/
def pixelRGB (b : Nat) : Nat × Nat × Nat :=
  let c0 : Nat × Nat × Nat := (0, 0, 0)
  let c1 := if b = 127 then (200, 200, 200) else c0
  let c2 := if b = 0 then (255, 255, 255) else c1
  let c3 := if ¬ (b = 127 ∨ b = 0) then (0, 0, 0) else c2
  c3

/-- Failure kinds of the decode stage (spec §7). The code returns `False`
after logging "Map data too small"; the spec names this InsufficientData. -/
inductive DecodeError where
  | InsufficientData : DecodeError
deriving DecidableEq, Repr

/-- The decode-and-colour stage of `create_map` (ha_map_converter.py lines
31-62): reject buffers shorter than `width*height`, otherwise classify the
first `width*height` bytes row-major. -/
def create_map (data : List Nat) (width height : Nat) :
    Except DecodeError (List (Nat × Nat × Nat)) :=
  if data.length < width * height then .error .InsufficientData
  else .ok (((data.take (width * height)).map pixelRGB))

theorem pixelRGB_eq_stateColor (b : Nat) :
    pixelRGB b = stateColor (classifySpec b) := by
  unfold pixelRGB classifySpec stateColor
  by_cases h127 : b = 127
  · subst h127; simp
  · by_cases h0 : b = 0
    · subst h0; simp
    · simp [h127, h0]

/-- C1: on any buffer of length at least `width*height`, the decoder
classifies each of the first `width*height` bytes row-major exactly as
127 ↦ Unknown, 0 ↦ Free, everything else ↦ Obstacle (rendered through the
fixed state legend), and produces no other state. -/
theorem create_map_classifies (data : List Nat) (width height : Nat)
    (hlen : width * height ≤ data.length) :
    ∃ img, create_map data width height = .ok img ∧
      img.length = width * height ∧
      ∀ i, i < width * height →
        img[i]? = (data[i]?).map (fun b => stateColor (classifySpec b)) := by
  refine ⟨(data.take (width * height)).map pixelRGB, ?_, ?_, ?_⟩
  · unfold create_map
    rw [if_neg (by omega)]
  · simp [List.length_take]
    omega
  · intro i hi
    have h2 : i < data.length := lt_of_lt_of_le hi hlen
    simp [List.getElem?_take, hi, List.getElem?_eq_getElem h2,
      pixelRGB_eq_stateColor]

theorem create_map_classifies_witness :
    ∃ img, create_map [5, 0, 127, 200] 2 2 = .ok img ∧
      img.length = 2 * 2 ∧
      ∀ i, i < 2 * 2 →
        img[i]? = (([5, 0, 127, 200] : List Nat)[i]?).map
          (fun b => stateColor (classifySpec b)) :=
  create_map_classifies [5, 0, 127, 200] 2 2 (by decide)

/-- C2: decoding succeeds exactly when the buffer holds at least
`width*height` bytes; a strictly shorter buffer yields the
`InsufficientData` outcome, and does so independently of the buffer's
contents — the length check precedes any classification. -/
theorem create_map_length_check (data : List Nat) (width height : Nat) :
    (width * height ≤ data.length →
      ∃ img, create_map data width height = .ok img) ∧
    (data.length < width * height →
      create_map data width height = .error .InsufficientData) ∧
    (∀ data' : List Nat, data.length < width * height →
      data'.length < width * height →
      create_map data width height = create_map data' width height) := by
  refine ⟨?_, ?_, ?_⟩
  · intro hlen
    exact ⟨_, (create_map_classifies data width height hlen).choose_spec.1⟩
  · intro hshort
    unfold create_map
    rw [if_pos hshort]
  · intro data' hshort hshort'
    unfold create_map
    rw [if_pos hshort, if_pos hshort']

theorem create_map_length_check_witness :
    create_map [9, 9] 3 1 = .error .InsufficientData :=
  (create_map_length_check [9, 9] 3 1).2.1 (by decide)

/-! ### World-to-pixel coordinate transform

`create_map_image` (map_converter.py lines 92-93) converts the charger pose
with `charger_pixel_x = int((charger_x - x_min) / resolution)`, and polygon
vertices (lines 113-117) with `px = int((x/100.0 - x_min) / resolution)`.
Python `int()` truncates toward zero, which differs from `floor` on negative
quotients. -/

/-- Python `int()` applied to a rational value: truncation toward zero. -/
def truncQ (q : ℚ) : ℤ := if 0 ≤ q then ⌊q⌋ else ⌈q⌉

/-- Charger-pose world-to-pixel conversion per axis:
`int((charger_x - x_min) / resolution)` (map_converter.py line 92). -/
def charger_pixel (world origin resolution : ℚ) : ℤ :=
  truncQ ((world - origin) / resolution)

/-- Polygon-vertex world-to-pixel conversion per axis; the vertex coordinate
is in centimeters: `int((x/100.0 - x_min) / resolution)`
(map_converter.py line 115). -/
def polygon_pixel (coord origin resolution : ℚ) : ℤ :=
  truncQ ((coord / 100 - origin) / resolution)

/-- C3 counterexample: the conversion is not `floor` on every input.  At
world coordinate -3/100 with origin 0 and resolution 1/20 the code computes
`int(-0.6) = 0`, while `floor(-0.6) = -1`. -/
theorem charger_pixel_floor_counterexample :
    charger_pixel (-3/100 : ℚ) 0 (1/20) = 0 ∧
    ⌊(((-3 : ℚ)/100) - 0) / (1/20)⌋ = -1 ∧
    charger_pixel (-3/100 : ℚ) 0 (1/20) ≠ ⌊(((-3 : ℚ)/100) - 0) / (1/20)⌋ := by
  have h1 : charger_pixel (-3/100 : ℚ) 0 (1/20) = 0 := by
    norm_num [charger_pixel, truncQ]
  have h2 : ⌊(((-3 : ℚ)/100) - 0) / (1/20)⌋ = -1 := by
    norm_num
  exact ⟨h1, h2, by rw [h1, h2]; decide⟩

/-- C3 amended: per axis the conversion computes
`truncQ ((world - origin) / resolution)` — truncation toward zero, which
agrees with `floor` whenever the quotient is nonnegative (in particular
whenever `world ≥ origin` and `resolution > 0`); polygon-sourced coordinates
are first divided by 100 before the same formula, charger-pose coordinates
are not. -/
theorem world_to_pixel_conversion (world origin resolution coord : ℚ) :
    (origin ≤ world → 0 < resolution →
      charger_pixel world origin resolution =
        ⌊(world - origin) / resolution⌋) ∧
    (polygon_pixel coord origin resolution =
      charger_pixel (coord / 100) origin resolution) ∧
    (charger_pixel world origin resolution =
      truncQ ((world - origin) / resolution)) := by
  refine ⟨?_, rfl, rfl⟩
  intro hle hres
  unfold charger_pixel truncQ
  rw [if_pos (div_nonneg (by linarith) (le_of_lt hres))]

theorem world_to_pixel_conversion_witness :
    charger_pixel (1/10 : ℚ) 0 (1/20) = ⌊((1/10 : ℚ) - 0) / (1/20)⌋ ∧
    polygon_pixel (250 : ℚ) 0 (1/20) = charger_pixel ((250 : ℚ) / 100) 0 (1/20) :=
  ⟨(world_to_pixel_conversion (1/10) 0 (1/20) 250).1 (by norm_num) (by norm_num),
   (world_to_pixel_conversion (1/10) 0 (1/20) 250).2.1⟩

/-! ### Room segmentation (v2_map_converter.py lines 164-203)

`flood_fill(raw_map, x, y, target_color, replacement_color, visited)` is a
breadth-first search with a FIFO queue (`queue.pop(0)` / `queue.append`),
a boolean `visited` matrix (modelled as a `Finset` of coordinates) and an
accumulating `pixels` list.  `detect_rooms` scans the grid row-major,
flood-fills each unvisited free cell and keeps areas strictly larger than
`min_room_size`, then sorts descending by size.

The Python loop terminates because every enqueued cell is freshly marked
visited; here the loop takes a fuel argument instantiated by the caller at
`2 * |grid| + 1`, which is proven sufficient below. -/

/-- An occupancy raster: `cell y x` is the byte at row `y`, column `x`
(mirroring `raw_map[y, x]` of shape `(height, width)`). -/
structure RawMap where
  width : Nat
  height : Nat
  cell : ℤ → ℤ → Nat

/-- The coordinate bound check used throughout the source:
`0 <= x < width and 0 <= y < height` for a pixel `p = (x, y)`. -/
def inB (m : RawMap) (p : ℤ × ℤ) : Prop :=
  0 ≤ p.1 ∧ p.1 < (m.width : ℤ) ∧ 0 ≤ p.2 ∧ p.2 < (m.height : ℤ)

instance (m : RawMap) (p : ℤ × ℤ) : Decidable (inB m p) := by
  unfold inB; infer_instance

/-- All in-bounds coordinates of the raster, as a finite set. -/
def allCells (m : RawMap) : Finset (ℤ × ℤ) :=
  ((Finset.range m.width) ×ˢ (Finset.range m.height)).image
    (fun q => ((q.1 : ℤ), (q.2 : ℤ)))

theorem mem_allCells (m : RawMap) (p : ℤ × ℤ) :
    p ∈ allCells m ↔ inB m p := by
  unfold allCells inB
  constructor
  · rintro h
    simp only [Finset.mem_image, Finset.mem_product, Finset.mem_range] at h
    obtain ⟨⟨a, b⟩, ⟨ha, hb⟩, hq⟩ := h
    cases hq
    simp only at ha hb ⊢
    refine ⟨Int.ofNat_nonneg a, ?_, Int.ofNat_nonneg b, ?_⟩ <;> exact_mod_cast ‹_›
  · rintro ⟨h1, h2, h3, h4⟩
    simp only [Finset.mem_image, Finset.mem_product, Finset.mem_range]
    refine ⟨(p.1.toNat, p.2.toNat), ⟨?_, ?_⟩, ?_⟩
    · omega
    · omega
    · ext <;> simp <;> omega

/-- The neighbour offsets iterated by the BFS inner loop:
`[(0, 1), (1, 0), (0, -1), (-1, 0)]`. -/
def dirs : List (ℤ × ℤ) := [(0, 1), (1, 0), (0, -1), (-1, 0)]

/-- The four neighbour coordinates `(cx + dx, cy + dy)` of a cell. -/
def neighborsOf (c : ℤ × ℤ) : List (ℤ × ℤ) :=
  dirs.map (fun d => (c.1 + d.1, c.2 + d.2))

/-- The mutable loop state of `flood_fill`: the `visited` matrix, the FIFO
`queue` and the accumulated `pixels` list. -/
structure FillState where
  visited : Finset (ℤ × ℤ)
  queue : List (ℤ × ℤ)
  pixels : List (ℤ × ℤ)

/-- One neighbour check of the BFS inner loop: if the neighbour is in
bounds, unvisited and has the target colour it is marked visited, enqueued
and appended to `pixels`; otherwise the state is unchanged. -/
def stepNeighbor (m : RawMap) (target : Nat) (st : FillState) (n : ℤ × ℤ) :
    FillState :=
  if inB m n ∧ n ∉ st.visited ∧ m.cell n.2 n.1 = target then
    { visited := insert n st.visited,
      queue := st.queue ++ [n],
      pixels := st.pixels ++ [n] }
  else st

/-- Processing one dequeued cell: the four neighbours are examined in the
source's direction order. -/
def processCell (m : RawMap) (target : Nat) (st : FillState) (c : ℤ × ℤ) :
    FillState :=
  (neighborsOf c).foldl (stepNeighbor m target) st

/-- The `while queue:` loop of `flood_fill`, with explicit fuel. -/
def bfsLoop (m : RawMap) (target : Nat) :
    Nat → FillState → List (ℤ × ℤ) × Finset (ℤ × ℤ)
  | 0, st => (st.pixels, st.visited)
  | fuel + 1, st =>
    match st.queue with
    | [] => (st.pixels, st.visited)
    | c :: rest =>
      bfsLoop m target fuel
        (processCell m target ⟨st.visited, rest, st.pixels⟩ c)

/-- `flood_fill` (v2_map_converter.py lines 164-185).  The early-exit guard
is the source's `if (x < 0 or y < 0 or x >= width or y >= height or
visited[y, x] or raw_map[y, x] != target_color): return []`; otherwise the
seed is marked visited, enqueued, recorded in `pixels`, and the BFS loop
runs.  The pair returned is (`pixels`, final `visited`), the second
component reflecting the in-place mutation of the `visited` matrix. -/
def flood_fill (m : RawMap) (x y : ℤ) (target : Nat)
    (visited : Finset (ℤ × ℤ)) : List (ℤ × ℤ) × Finset (ℤ × ℤ) :=
  if x < 0 ∨ y < 0 ∨ (m.width : ℤ) ≤ x ∨ (m.height : ℤ) ≤ y ∨
      (x, y) ∈ visited ∨ m.cell y x ≠ target then
    ([], visited)
  else
    bfsLoop m target (2 * (allCells m).card + 1)
      ⟨insert (x, y) visited, [(x, y)], [(x, y)]⟩

/-- One cell of the `detect_rooms` scan: an unvisited free cell seeds a
flood fill, and the area is kept iff `len(area) > min_room_size`. -/
def detectStep (m : RawMap) (min_room_size : Nat)
    (st : Finset (ℤ × ℤ) × List (List (ℤ × ℤ))) (p : ℤ × ℤ) :
    Finset (ℤ × ℤ) × List (List (ℤ × ℤ)) :=
  if p ∉ st.1 ∧ m.cell p.2 p.1 = 0 then
    let res := flood_fill m p.1 p.2 0 st.1
    (res.2, if min_room_size < res.1.length then st.2 ++ [res.1] else st.2)
  else st

/-- The row-major scan order of `detect_rooms` (`for y in range(height):
for x in range(width):`). -/
def rowMajorCells (m : RawMap) : List (ℤ × ℤ) :=
  (List.range m.height).foldr
    (fun (y : ℕ) acc =>
      ((List.range m.width).map (fun (x : ℕ) => ((x : ℤ), (y : ℤ)))) ++ acc) []

/-- `detect_rooms` (v2_map_converter.py lines 187-203): scan, flood-fill,
filter by strict size threshold, sort by descending area size. -/
def detect_rooms (m : RawMap) (min_room_size : Nat := 100) :
    List (List (ℤ × ℤ)) :=
  ((rowMajorCells m).foldl (detectStep m min_room_size) (∅, [])).2.mergeSort
    (fun a b => b.length ≤ a.length)

/-! ### Reachability for flood-fill correctness -/

/-- A cell carrying the target colour inside the raster bounds. -/
def goodCell (m : RawMap) (target : Nat) (p : ℤ × ℤ) : Prop :=
  inB m p ∧ m.cell p.2 p.1 = target

instance (m : RawMap) (target : Nat) (p : ℤ × ℤ) :
    Decidable (goodCell m target p) := by
  unfold goodCell; infer_instance

/-- 4-neighbourhood adjacency, via the source's direction list. -/
def adjacent (p q : ℤ × ℤ) : Prop :=
  ∃ d ∈ dirs, q = (p.1 + d.1, p.2 + d.2)

/-- One connectivity step: move to an adjacent target-coloured cell. -/
def fstep (m : RawMap) (target : Nat) (a b : ℤ × ℤ) : Prop :=
  goodCell m target b ∧ adjacent a b

/-- `p` is reachable from `s` through target-coloured cells
(4-neighbourhood); the seed itself is reachable reflexively. -/
def Reach (m : RawMap) (target : Nat) (s p : ℤ × ℤ) : Prop :=
  Relation.ReflTransGen (fstep m target) s p

/-- Reachability restricted to cells outside an already-visited set `V`. -/
def ReachAvoid (m : RawMap) (target : Nat) (V : Finset (ℤ × ℤ))
    (s p : ℤ × ℤ) : Prop :=
  Relation.ReflTransGen (fun a b => fstep m target a b ∧ b ∉ V) s p

/-- `A` lists, without duplicates, exactly the free-space component of `s`. -/
def Enumerates (m : RawMap) (s : ℤ × ℤ) (A : List (ℤ × ℤ)) : Prop :=
  A.Nodup ∧ ∀ p, p ∈ A ↔ Reach m 0 s p

theorem adjacent_symm {p q : ℤ × ℤ} (h : adjacent p q) : adjacent q p := by
  obtain ⟨d, hd, rfl⟩ := h
  simp only [dirs, List.mem_cons, List.not_mem_nil, or_false] at hd
  refine ⟨(-d.1, -d.2), ?_, by simp⟩
  rcases hd with rfl | rfl | rfl | rfl <;> simp [dirs]

theorem mem_neighborsOf {c q : ℤ × ℤ} :
    q ∈ neighborsOf c ↔ adjacent c q := by
  unfold neighborsOf adjacent
  constructor
  · intro h
    simp only [List.mem_map] at h
    obtain ⟨d, hd, rfl⟩ := h
    exact ⟨d, hd, rfl⟩
  · rintro ⟨d, hd, rfl⟩
    simp only [List.mem_map]
    exact ⟨d, hd, rfl⟩

theorem reach_good {m : RawMap} {target : Nat} {s p : ℤ × ℤ}
    (hs : goodCell m target s) (h : Reach m target s p) :
    goodCell m target p := by
  induction h with
  | refl => exact hs
  | tail _ hstep _ => exact hstep.1

theorem reach_symm {m : RawMap} {target : Nat} {s p : ℤ × ℤ}
    (hs : goodCell m target s) (h : Reach m target s p) :
    Reach m target p s := by
  induction h with
  | refl => exact Relation.ReflTransGen.refl
  | @tail a b hsa hstep ih =>
    have hga : goodCell m target a := reach_good hs hsa
    exact Relation.ReflTransGen.trans
      (Relation.ReflTransGen.single ⟨hga, adjacent_symm hstep.2⟩) ih

theorem reach_trans {m : RawMap} {target : Nat} {s p q : ℤ × ℤ}
    (h1 : Reach m target s p) (h2 : Reach m target p q) :
    Reach m target s q :=
  Relation.ReflTransGen.trans h1 h2

theorem reachAvoid_reach {m : RawMap} {target : Nat} {V : Finset (ℤ × ℤ)}
    {s p : ℤ × ℤ} (h : ReachAvoid m target V s p) : Reach m target s p :=
  Relation.ReflTransGen.mono (fun _ _ hab => hab.1) h

theorem reachAvoid_not_mem {m : RawMap} {target : Nat} {V : Finset (ℤ × ℤ)}
    {s p : ℤ × ℤ} (hs : s ∉ V) (h : ReachAvoid m target V s p) : p ∉ V := by
  induction h with
  | refl => exact hs
  | tail _ hstep _ => exact hstep.2

/-- A visited set that is a union of whole components does not cut any
component: avoiding it is no restriction for seeds outside it. -/
theorem reach_of_closed {m : RawMap} {target : Nat} {V : Finset (ℤ × ℤ)}
    (hV : ∀ a ∈ V, goodCell m target a ∧
      ∀ b, fstep m target a b → b ∈ V)
    {s p : ℤ × ℤ} (hs : goodCell m target s) (hsV : s ∉ V)
    (h : Reach m target s p) : ReachAvoid m target V s p := by
  induction h with
  | refl => exact Relation.ReflTransGen.refl
  | @tail a b hsa hstep ih =>
    have haV : a ∉ V := reachAvoid_not_mem hsV ih
    have hbV : b ∉ V := by
      intro hbV
      exact haV ((hV b hbV).2 a ⟨reach_good hs hsa, adjacent_symm hstep.2⟩)
    exact Relation.ReflTransGen.tail ih ⟨hstep, hbV⟩

/-! ### BFS loop invariant -/

/-- Data-structure invariant of the flood-fill loop state, relative to the
pre-existing visited set `V₀` and the seed `s`: `pixels` are exactly the
newly visited cells, they are duplicate-free, target-coloured, reachable
from the seed avoiding `V₀`, and the queue is a duplicate-free subset of
`pixels`. -/
structure BaseInv (m : RawMap) (target : Nat) (V₀ : Finset (ℤ × ℤ))
    (s : ℤ × ℤ) (st : FillState) : Prop where
  vis_eq : st.visited = V₀ ∪ st.pixels.toFinset
  pix_nodup : st.pixels.Nodup
  pix_prop : ∀ p ∈ st.pixels, p ∉ V₀ ∧ goodCell m target p ∧
      ReachAvoid m target V₀ s p
  queue_sub : ∀ p ∈ st.queue, p ∈ st.pixels
  queue_nodup : st.queue.Nodup

theorem stepNeighbor_spec (m : RawMap) (target : Nat)
    (V₀ : Finset (ℤ × ℤ)) (s c : ℤ × ℤ) (st : FillState) (n : ℤ × ℤ)
    (hB : BaseInv m target V₀ s st)
    (hcr : ReachAvoid m target V₀ s c) (hadj : adjacent c n) :
    BaseInv m target V₀ s (stepNeighbor m target st n) ∧
    (∀ p ∈ st.pixels, p ∈ (stepNeighbor m target st n).pixels) ∧
    (∃ t, (stepNeighbor m target st n).queue = st.queue ++ t) ∧
    (goodCell m target n → n ∉ V₀ →
      n ∈ (stepNeighbor m target st n).pixels) ∧
    (∀ b ∈ (stepNeighbor m target st n).pixels,
      b ∈ st.pixels ∨ (b = n ∧ b ∈ (stepNeighbor m target st n).queue)) := by
  unfold stepNeighbor
  by_cases hg : inB m n ∧ n ∉ st.visited ∧ m.cell n.2 n.1 = target
  · rw [if_pos hg]
    have hnpix : n ∉ st.pixels := by
      intro hmem
      apply hg.2.1
      rw [hB.vis_eq]
      exact Finset.mem_union_right _ (List.mem_toFinset.mpr hmem)
    have hnV₀ : n ∉ V₀ := by
      intro hmem
      apply hg.2.1
      rw [hB.vis_eq]
      exact Finset.mem_union_left _ hmem
    have hgood : goodCell m target n := ⟨hg.1, hg.2.2⟩
    have hreach : ReachAvoid m target V₀ s n :=
      Relation.ReflTransGen.tail hcr ⟨⟨hgood, hadj⟩, hnV₀⟩
    refine ⟨⟨?_, ?_, ?_, ?_, ?_⟩, ?_, ⟨[n], rfl⟩, ?_, ?_⟩
    · simp only [List.toFinset_append, List.toFinset_cons, List.toFinset_nil]
      rw [hB.vis_eq]
      ext q
      simp [Finset.mem_union, Finset.mem_insert]
      tauto
    · exact List.Nodup.append hB.pix_nodup (List.nodup_singleton n)
        (by simpa using hnpix)
    · intro p hp
      rcases List.mem_append.mp hp with hp | hp
      · exact hB.pix_prop p hp
      · rcases List.mem_singleton.mp hp with rfl
        exact ⟨hnV₀, hgood, hreach⟩
    · intro p hp
      rcases List.mem_append.mp hp with hp | hp
      · exact List.mem_append_left _ (hB.queue_sub p hp)
      · exact List.mem_append_right _ hp
    · refine List.Nodup.append hB.queue_nodup (List.nodup_singleton n) ?_
      simp only [List.disjoint_singleton]
      intro hq
      exact hnpix (hB.queue_sub n hq)
    · intro p hp; exact List.mem_append_left _ hp
    · intro _ _; exact List.mem_append_right _ (List.mem_singleton_self n)
    · intro b hb
      rcases List.mem_append.mp hb with hb | hb
      · exact Or.inl hb
      · rcases List.mem_singleton.mp hb with rfl
        exact Or.inr ⟨rfl, List.mem_append_right _ (List.mem_singleton_self b)⟩
  · rw [if_neg hg]
    refine ⟨hB, fun p hp => hp, ⟨[], by simp⟩, ?_, fun b hb => Or.inl hb⟩
    intro hgood hnV₀
    by_contra hnpix
    have : n ∈ st.visited := by
      rcases not_and_or.mp hg with h | h
      · exact absurd hgood.1 h
      rcases not_and_or.mp h with h | h
      · exact not_not.mp h
      · exact absurd hgood.2 h
    rw [hB.vis_eq] at this
    rcases Finset.mem_union.mp this with h | h
    · exact hnV₀ h
    · exact hnpix (List.mem_toFinset.mp h)

theorem foldl_stepNeighbor_spec (m : RawMap) (target : Nat)
    (V₀ : Finset (ℤ × ℤ)) (s c : ℤ × ℤ) :
    ∀ (todo : List (ℤ × ℤ)), (∀ n ∈ todo, adjacent c n) →
    ∀ st : FillState, BaseInv m target V₀ s st →
    ReachAvoid m target V₀ s c →
    BaseInv m target V₀ s (todo.foldl (stepNeighbor m target) st) ∧
    (∀ p ∈ st.pixels, p ∈ (todo.foldl (stepNeighbor m target) st).pixels) ∧
    (∃ t, (todo.foldl (stepNeighbor m target) st).queue = st.queue ++ t) ∧
    (∀ n ∈ todo, goodCell m target n → n ∉ V₀ →
      n ∈ (todo.foldl (stepNeighbor m target) st).pixels) ∧
    (∀ b ∈ (todo.foldl (stepNeighbor m target) st).pixels,
      b ∈ st.pixels ∨ b ∈ (todo.foldl (stepNeighbor m target) st).queue) := by
  intro todo
  induction todo with
  | nil =>
    intro _ st hB _
    exact ⟨hB, fun p hp => hp, ⟨[], by simp⟩, by simp, fun b hb => Or.inl hb⟩
  | cons n todo' ih =>
    intro hadj st hB hcr
    simp only [List.foldl_cons]
    obtain ⟨hB₁, hmono₁, ⟨t₁, hq₁⟩, hnin, hnew₁⟩ :=
      stepNeighbor_spec m target V₀ s c st n hB hcr (hadj n (by simp))
    obtain ⟨hB', hmono', ⟨t', hq'⟩, htodo', hnew'⟩ :=
      ih (fun n' hn' => hadj n' (by simp [hn']))
        (stepNeighbor m target st n) hB₁ hcr
    refine ⟨hB', fun p hp => hmono' p (hmono₁ p hp),
      ⟨t₁ ++ t', by rw [hq', hq₁, List.append_assoc]⟩, ?_, ?_⟩
    · intro n' hn' hgood hV₀
      rcases List.mem_cons.mp hn' with rfl | hn'
      · exact hmono' _ (hnin hgood hV₀)
      · exact htodo' n' hn' hgood hV₀
    · intro b hb
      rcases hnew' b hb with hb' | hb'
      · rcases hnew₁ b hb' with hb'' | ⟨rfl, hq⟩
        · exact Or.inl hb''
        · right
          rw [hq']
          exact List.mem_append_left _ hq
      · exact Or.inr hb'

/-- The termination measure of the BFS loop: twice the number of still
unvisited raster cells, plus the queue length. -/
def fillMeasure (m : RawMap) (st : FillState) : ℕ :=
  2 * ((allCells m) \ st.visited).card + st.queue.length

theorem stepNeighbor_measure (m : RawMap) (target : Nat)
    (st : FillState) (n : ℤ × ℤ) :
    fillMeasure m (stepNeighbor m target st n) ≤ fillMeasure m st := by
  unfold stepNeighbor fillMeasure
  by_cases hg : inB m n ∧ n ∉ st.visited ∧ m.cell n.2 n.1 = target
  · rw [if_pos hg]
    have hmem : n ∈ (allCells m) \ st.visited :=
      Finset.mem_sdiff.mpr ⟨(mem_allCells m n).mpr hg.1, hg.2.1⟩
    have hpos : 0 < ((allCells m) \ st.visited).card :=
      Finset.card_pos.mpr ⟨n, hmem⟩
    have hcard : ((allCells m) \ insert n st.visited).card =
        ((allCells m) \ st.visited).card - 1 := by
      rw [Finset.sdiff_insert]
      exact Finset.card_erase_of_mem hmem
    simp only [hcard, List.length_append, List.length_singleton]
    omega
  · rw [if_neg hg]

theorem foldl_stepNeighbor_measure (m : RawMap) (target : Nat)
    (todo : List (ℤ × ℤ)) :
    ∀ st : FillState,
    fillMeasure m (todo.foldl (stepNeighbor m target) st) ≤
      fillMeasure m st := by
  induction todo with
  | nil => intro st; exact le_rfl
  | cons n todo' ih =>
    intro st
    simp only [List.foldl_cons]
    exact le_trans (ih (stepNeighbor m target st n))
      (stepNeighbor_measure m target st n)

/-- Full invariant of the BFS loop: the data-structure invariant plus
closure of the already-processed pixels under connectivity steps. -/
structure LoopInv (m : RawMap) (target : Nat) (V₀ : Finset (ℤ × ℤ))
    (s : ℤ × ℤ) (st : FillState)
    extends BaseInv m target V₀ s st : Prop where
  closed : ∀ a ∈ st.pixels, a ∉ st.queue →
      ∀ b, fstep m target a b → b ∉ V₀ → b ∈ st.pixels

theorem processCell_spec (m : RawMap) (target : Nat)
    (V₀ : Finset (ℤ × ℤ)) (s c : ℤ × ℤ) (rest : List (ℤ × ℤ))
    (st : FillState) (hInv : LoopInv m target V₀ s st)
    (hqueue : st.queue = c :: rest) :
    LoopInv m target V₀ s
      (processCell m target ⟨st.visited, rest, st.pixels⟩ c) ∧
    (∀ p ∈ st.pixels,
      p ∈ (processCell m target ⟨st.visited, rest, st.pixels⟩ c).pixels) ∧
    fillMeasure m (processCell m target ⟨st.visited, rest, st.pixels⟩ c) <
      fillMeasure m st := by
  have hc_pix : c ∈ st.pixels := hInv.queue_sub c (by rw [hqueue]; simp)
  have hc_reach : ReachAvoid m target V₀ s c := (hInv.pix_prop c hc_pix).2.2
  have hc_rest : c ∉ rest := by
    have := hInv.queue_nodup
    rw [hqueue] at this
    exact (List.nodup_cons.mp this).1
  have hB_mid : BaseInv m target V₀ s ⟨st.visited, rest, st.pixels⟩ :=
    { vis_eq := hInv.vis_eq
      pix_nodup := hInv.pix_nodup
      pix_prop := hInv.pix_prop
      queue_sub := fun p hp => hInv.queue_sub p (by rw [hqueue]; simp [hp])
      queue_nodup := by
        have := hInv.queue_nodup
        rw [hqueue] at this
        exact (List.nodup_cons.mp this).2 }
  obtain ⟨hB', hmono', ⟨t', hq'⟩, hnbr', hnew'⟩ :=
    foldl_stepNeighbor_spec m target V₀ s c (neighborsOf c)
      (fun n hn => mem_neighborsOf.mp hn) ⟨st.visited, rest, st.pixels⟩
      hB_mid hc_reach
  refine ⟨⟨hB', ?_⟩, hmono', ?_⟩
  · intro a ha hahq b hb hbV₀
    simp only [processCell] at ha hahq ⊢
    rcases hnew' a ha with ha' | ha'
    · by_cases hac : a = c
      · subst hac
        exact hnbr' b (mem_neighborsOf.mpr hb.2) hb.1 hbV₀
      · have hnotrest : a ∉ rest := by
          intro hmem
          apply hahq
          rw [hq']
          exact List.mem_append_left _ hmem
        have : a ∉ st.queue := by
          rw [hqueue]
          simp [hac, hnotrest]
        exact hmono' b (hInv.closed a ha' this b hb hbV₀)
    · exact absurd ha' hahq
  · calc fillMeasure m (processCell m target ⟨st.visited, rest, st.pixels⟩ c)
        ≤ fillMeasure m ⟨st.visited, rest, st.pixels⟩ :=
          foldl_stepNeighbor_measure m target (neighborsOf c) _
      _ < fillMeasure m st := by
          unfold fillMeasure
          rw [hqueue]
          simp

theorem bfsLoop_spec (m : RawMap) (target : Nat) (V₀ : Finset (ℤ × ℤ))
    (s : ℤ × ℤ) :
    ∀ (fuel : ℕ) (st : FillState), LoopInv m target V₀ s st →
    fillMeasure m st ≤ fuel →
    (bfsLoop m target fuel st).2 =
      V₀ ∪ (bfsLoop m target fuel st).1.toFinset ∧
    (bfsLoop m target fuel st).1.Nodup ∧
    (∀ p ∈ st.pixels, p ∈ (bfsLoop m target fuel st).1) ∧
    (∀ p ∈ (bfsLoop m target fuel st).1,
      p ∉ V₀ ∧ goodCell m target p ∧ ReachAvoid m target V₀ s p) ∧
    (∀ a ∈ (bfsLoop m target fuel st).1, ∀ b, fstep m target a b →
      b ∉ V₀ → a ∈ (bfsLoop m target fuel st).1 →
      b ∈ (bfsLoop m target fuel st).1) := by
  intro fuel
  induction fuel with
  | zero =>
    intro st hInv hfuel
    have hq : st.queue = [] := by
      have : st.queue.length = 0 := by
        unfold fillMeasure at hfuel
        omega
      exact List.length_eq_zero.mp this
    simp only [bfsLoop]
    refine ⟨hInv.vis_eq, hInv.pix_nodup, fun p hp => hp, hInv.pix_prop, ?_⟩
    intro a ha b hb hbV₀ _
    exact hInv.closed a ha (by rw [hq]; simp) b hb hbV₀
  | succ fuel ih =>
    intro st hInv hfuel
    match hqueue : st.queue with
    | [] =>
      simp only [bfsLoop, hqueue]
      refine ⟨hInv.vis_eq, hInv.pix_nodup, fun p hp => hp, hInv.pix_prop, ?_⟩
      intro a ha b hb hbV₀ _
      exact hInv.closed a ha (by rw [hqueue]; simp) b hb hbV₀
    | c :: rest =>
      obtain ⟨hInv', hmono', hlt⟩ :=
        processCell_spec m target V₀ s c rest st hInv hqueue
      have hstep : bfsLoop m target (fuel + 1) st =
          bfsLoop m target fuel
            (processCell m target ⟨st.visited, rest, st.pixels⟩ c) := by
        conv_lhs => rw [bfsLoop]
        rw [hqueue]
      rw [hstep]
      obtain ⟨h1, h2, h3, h4, h5⟩ :=
        ih (processCell m target ⟨st.visited, rest, st.pixels⟩ c) hInv'
          (by omega)
      exact ⟨h1, h2, fun p hp => h3 p (hmono' p hp), h4, h5⟩

/-- The flood-fill guard, exactly as written at v2_map_converter.py
lines 167-168. -/
theorem flood_fill_guard (m : RawMap) (x y : ℤ) (target : Nat)
    (visited : Finset (ℤ × ℤ))
    (h : x < 0 ∨ y < 0 ∨ (m.width : ℤ) ≤ x ∨ (m.height : ℤ) ≤ y ∨
      (x, y) ∈ visited ∨ m.cell y x ≠ target) :
    flood_fill m x y target visited = ([], visited) := by
  unfold flood_fill
  rw [if_pos h]

theorem flood_fill_spec (m : RawMap) (target : Nat) (V₀ : Finset (ℤ × ℤ))
    (x y : ℤ) (hgood : goodCell m target (x, y)) (hV₀ : (x, y) ∉ V₀) :
    (flood_fill m x y target V₀).1.Nodup ∧
    (∀ p, p ∈ (flood_fill m x y target V₀).1 ↔
      ReachAvoid m target V₀ (x, y) p) ∧
    (flood_fill m x y target V₀).2 =
      V₀ ∪ (flood_fill m x y target V₀).1.toFinset := by
  obtain ⟨⟨hx0, hxw, hy0, hyh⟩, hcell⟩ := hgood
  simp only at hx0 hxw hy0 hyh
  have hguard : ¬ (x < 0 ∨ y < 0 ∨ (m.width : ℤ) ≤ x ∨
      (m.height : ℤ) ≤ y ∨ (x, y) ∈ V₀ ∨ m.cell y x ≠ target) := by
    push_neg
    exact ⟨by omega, by omega, by omega, by omega, hV₀, hcell⟩
  have heq : flood_fill m x y target V₀ =
      bfsLoop m target (2 * (allCells m).card + 1)
        ⟨insert (x, y) V₀, [(x, y)], [(x, y)]⟩ := by
    unfold flood_fill
    rw [if_neg hguard]
  have hInv : LoopInv m target V₀ (x, y)
      ⟨insert (x, y) V₀, [(x, y)], [(x, y)]⟩ :=
    { vis_eq := by
        ext q
        simp [Finset.mem_insert, Finset.mem_union]
        tauto
      pix_nodup := List.nodup_singleton _
      pix_prop := by
        intro p hp
        rcases List.mem_singleton.mp hp with rfl
        exact ⟨hV₀, ⟨⟨hx0, hxw, hy0, hyh⟩, hcell⟩, Relation.ReflTransGen.refl⟩
      queue_sub := fun p hp => hp
      queue_nodup := List.nodup_singleton _
      closed := by
        intro a ha hq
        rcases List.mem_singleton.mp ha with rfl
        exact absurd (List.mem_singleton_self _) hq }
  have hfuel : fillMeasure m ⟨insert (x, y) V₀, [(x, y)], [(x, y)]⟩ ≤
      2 * (allCells m).card + 1 := by
    unfold fillMeasure
    have : ((allCells m) \ insert (x, y) V₀).card ≤ (allCells m).card :=
      Finset.card_le_card (Finset.sdiff_subset)
    simp only [List.length_singleton]
    omega
  obtain ⟨h1, h2, h3, h4, h5⟩ :=
    bfsLoop_spec m target V₀ (x, y) (2 * (allCells m).card + 1)
      ⟨insert (x, y) V₀, [(x, y)], [(x, y)]⟩ hInv hfuel
  rw [heq]
  refine ⟨h2, ?_, h1⟩
  intro p
  constructor
  · intro hp
    exact (h4 p hp).2.2
  · intro hreach
    induction hreach with
    | refl => exact h3 (x, y) (List.mem_singleton_self _)
    | @tail a b hsa hstep ihp =>
      exact h5 a ihp b hstep.1 hstep.2 ihp

theorem length_eq_of_nodup_mem_iff {A B : List (ℤ × ℤ)}
    (hA : A.Nodup) (hB : B.Nodup) (h : ∀ p, p ∈ A ↔ p ∈ B) :
    A.length = B.length := by
  have hset : A.toFinset = B.toFinset := by
    ext q
    simp only [List.mem_toFinset]
    exact h q
  rw [← List.toFinset_card_of_nodup hA, ← List.toFinset_card_of_nodup hB,
    hset]

theorem reach_comp_eq {m : RawMap} {s q : ℤ × ℤ}
    (hs : goodCell m 0 s) (hq : Reach m 0 s q) :
    ∀ r, Reach m 0 q r ↔ Reach m 0 s r :=
  fun _ => ⟨fun h => reach_trans hq h,
    fun h => reach_trans (reach_symm hs hq) h⟩

/-- Invariant of the `detect_rooms` scan state `(visited, room_segments)`:
the visited set is a union of whole free-space components, each collected
area is a duplicate-free enumeration of one component of size strictly
above the threshold, distinct areas are disjoint, and the component of
every visited cell has either been collected or is too small. -/
structure ScanInv (m : RawMap) (k : Nat)
    (st : Finset (ℤ × ℤ) × List (List (ℤ × ℤ))) : Prop where
  vis_closed : ∀ a ∈ st.1, goodCell m 0 a ∧ ∀ b, fstep m 0 a b → b ∈ st.1
  areas_prop : ∀ A ∈ st.2, A.Nodup ∧ k < A.length ∧
      (∃ s₀, goodCell m 0 s₀ ∧ ∀ p, p ∈ A ↔ Reach m 0 s₀ p) ∧
      (∀ p ∈ A, p ∈ st.1)
  areas_disj : st.2.Pairwise (fun A B => ∀ p ∈ A, p ∉ B)
  vis_comp : ∀ p ∈ st.1,
      (∃ A ∈ st.2, ∀ q, q ∈ A ↔ Reach m 0 p q) ∨
      (∀ B, Enumerates m p B → B.length ≤ k)

theorem detectStep_spec (m : RawMap) (k : Nat)
    (st : Finset (ℤ × ℤ) × List (List (ℤ × ℤ))) (p : ℤ × ℤ)
    (hInv : ScanInv m k st) :
    ScanInv m k (detectStep m k st p) ∧
    (∀ q ∈ st.1, q ∈ (detectStep m k st p).1) ∧
    (∀ A ∈ st.2, A ∈ (detectStep m k st p).2) ∧
    (goodCell m 0 p → p ∈ (detectStep m k st p).1) := by
  unfold detectStep
  by_cases hg : p ∉ st.1 ∧ m.cell p.2 p.1 = 0
  · rw [if_pos hg]
    dsimp only
    by_cases hin : inB m p
    · -- the seeded flood fill collects the whole component of p
      have hgood : goodCell m 0 p := ⟨hin, hg.2⟩
      obtain ⟨hnd, hmem, hvis⟩ :=
        flood_fill_spec m 0 st.1 p.1 p.2 (by simpa using hgood) hg.1
      have hra : ∀ q, ReachAvoid m 0 st.1 (p.1, p.2) q ↔ Reach m 0 p q := by
        intro q
        constructor
        · intro h
          exact reachAvoid_reach h
        · intro h
          exact reach_of_closed hInv.vis_closed hgood hg.1 h
      have hmem' : ∀ q, q ∈ (flood_fill m p.1 p.2 0 st.1).1 ↔
          Reach m 0 p q := by
        intro q
        rw [hmem q, hra q]
      have harea_vis : ∀ q ∈ (flood_fill m p.1 p.2 0 st.1).1,
          q ∈ (flood_fill m p.1 p.2 0 st.1).2 := by
        intro q hq
        rw [hvis]
        exact Finset.mem_union_right _ (List.mem_toFinset.mpr hq)
      have hold_vis : ∀ q ∈ st.1, q ∈ (flood_fill m p.1 p.2 0 st.1).2 := by
        intro q hq
        rw [hvis]
        exact Finset.mem_union_left _ hq
      have hnew_not_old : ∀ q ∈ (flood_fill m p.1 p.2 0 st.1).1,
          q ∉ st.1 := by
        intro q hq
        exact reachAvoid_not_mem hg.1 ((hmem q).mp hq)
      have hvis_cases : ∀ q ∈ (flood_fill m p.1 p.2 0 st.1).2,
          q ∈ st.1 ∨ q ∈ (flood_fill m p.1 p.2 0 st.1).1 := by
        intro q hq
        rw [hvis] at hq
        rcases Finset.mem_union.mp hq with h | h
        · exact Or.inl h
        · exact Or.inr (List.mem_toFinset.mp h)
      have hclosed' : ∀ a ∈ (flood_fill m p.1 p.2 0 st.1).2,
          goodCell m 0 a ∧
          ∀ b, fstep m 0 a b → b ∈ (flood_fill m p.1 p.2 0 st.1).2 := by
        intro a ha
        rcases hvis_cases a ha with h | h
        · obtain ⟨hga, hcl⟩ := hInv.vis_closed a h
          exact ⟨hga, fun b hb => hold_vis b (hcl b hb)⟩
        · have hreach : Reach m 0 p a := (hmem' a).mp h
          refine ⟨reach_good hgood hreach, ?_⟩
          intro b hb
          exact harea_vis b ((hmem' b).mpr (Relation.ReflTransGen.tail hreach hb))
      have hcomp_new : ∀ q ∈ (flood_fill m p.1 p.2 0 st.1).1,
          ∀ r, Reach m 0 q r ↔ Reach m 0 p r := by
        intro q hq
        exact reach_comp_eq hgood ((hmem' q).mp hq)
      by_cases hlen : k < (flood_fill m p.1 p.2 0 st.1).1.length
      · rw [if_pos hlen]
        refine ⟨⟨hclosed', ?_, ?_, ?_⟩, hold_vis, ?_, fun _ => harea_vis _ ?_⟩
        · intro A hA
          rcases List.mem_append.mp hA with hA | hA
          · obtain ⟨h1, h2, h3, h4⟩ := hInv.areas_prop A hA
            exact ⟨h1, h2, h3, fun q hq => hold_vis q (h4 q hq)⟩
          · rcases List.mem_singleton.mp hA with rfl
            exact ⟨hnd, hlen, ⟨p, hgood, hmem'⟩, harea_vis⟩
        · rw [List.pairwise_append]
          refine ⟨hInv.areas_disj, List.pairwise_singleton _ _, ?_⟩
          intro A hA B hB q hqA
          rcases List.mem_singleton.mp hB with rfl
          intro hqB
          exact hnew_not_old q hqB ((hInv.areas_prop A hA).2.2.2 q hqA)
        · intro q hq
          rcases hvis_cases q hq with h | h
          · rcases hInv.vis_comp q h with ⟨A, hA, hAq⟩ | hsmall
            · exact Or.inl ⟨A, List.mem_append_left _ hA, hAq⟩
            · exact Or.inr hsmall
          · left
            refine ⟨(flood_fill m p.1 p.2 0 st.1).1,
              List.mem_append_right _ (List.mem_singleton_self _), ?_⟩
            intro r
            rw [hmem' r, hcomp_new q h r]
        · intro A hA
          exact List.mem_append_left _ hA
        · exact (hmem' p).mpr Relation.ReflTransGen.refl
      · rw [if_neg hlen]
        refine ⟨⟨hclosed', ?_, hInv.areas_disj, ?_⟩, hold_vis, fun A hA => hA,
          fun _ => harea_vis _ ?_⟩
        · intro A hA
          obtain ⟨h1, h2, h3, h4⟩ := hInv.areas_prop A hA
          exact ⟨h1, h2, h3, fun q hq => hold_vis q (h4 q hq)⟩
        · intro q hq
          rcases hvis_cases q hq with h | h
          · exact hInv.vis_comp q h
          · right
            intro B hB
            have hlenB : B.length = (flood_fill m p.1 p.2 0 st.1).1.length := by
              refine length_eq_of_nodup_mem_iff hB.1 hnd ?_
              intro r
              rw [hB.2 r, hmem' r, hcomp_new q h r]
            omega
        · exact (hmem' p).mpr Relation.ReflTransGen.refl
    · -- out-of-bounds scan cell: the flood fill exits via its guard
      have hff : flood_fill m p.1 p.2 0 st.1 = ([], st.1) := by
        apply flood_fill_guard
        unfold inB at hin
        by_cases h1 : p.1 < 0
        · exact Or.inl h1
        · by_cases h2 : p.2 < 0
          · exact Or.inr (Or.inl h2)
          · by_cases h3 : (m.width : ℤ) ≤ p.1
            · exact Or.inr (Or.inr (Or.inl h3))
            · by_cases h4 : (m.height : ℤ) ≤ p.2
              · exact Or.inr (Or.inr (Or.inr (Or.inl h4)))
              · exact absurd ⟨by omega, by omega, by omega, by omega⟩ hin
      rw [hff]
      simp only [List.length_nil]
      rw [if_neg (by omega)]
      refine ⟨hInv, fun q hq => hq, fun A hA => hA, ?_⟩
      intro hgood
      exact absurd hgood.1 hin
  · rw [if_neg hg]
    refine ⟨hInv, fun q hq => hq, fun A hA => hA, ?_⟩
    intro hgood
    rcases not_and_or.mp hg with h | h
    · exact not_not.mp h
    · exact absurd hgood.2 h

theorem scan_foldl_spec (m : RawMap) (k : Nat) :
    ∀ (cells : List (ℤ × ℤ)) (st : Finset (ℤ × ℤ) × List (List (ℤ × ℤ))),
    ScanInv m k st →
    ScanInv m k (cells.foldl (detectStep m k) st) ∧
    (∀ q ∈ st.1, q ∈ (cells.foldl (detectStep m k) st).1) ∧
    (∀ A ∈ st.2, A ∈ (cells.foldl (detectStep m k) st).2) ∧
    (∀ p ∈ cells, goodCell m 0 p →
      p ∈ (cells.foldl (detectStep m k) st).1) := by
  intro cells
  induction cells with
  | nil =>
    intro st hInv
    exact ⟨hInv, fun q hq => hq, fun A hA => hA, by simp⟩
  | cons c cells' ih =>
    intro st hInv
    simp only [List.foldl_cons]
    obtain ⟨hInv₁, hvis₁, hareas₁, hc₁⟩ := detectStep_spec m k st c hInv
    obtain ⟨hInv', hvis', hareas', hcells'⟩ := ih (detectStep m k st c) hInv₁
    refine ⟨hInv', fun q hq => hvis' q (hvis₁ q hq),
      fun A hA => hareas' A (hareas₁ A hA), ?_⟩
    intro p hp hgood
    rcases List.mem_cons.mp hp with rfl | hp
    · exact hvis' p (hc₁ hgood)
    · exact hcells' p hp hgood

theorem mem_rowMajorCells (m : RawMap) (p : ℤ × ℤ) :
    p ∈ rowMajorCells m ↔ inB m p := by
  unfold rowMajorCells
  have key : ∀ (l : List Nat),
      (p ∈ l.foldr (fun (y : ℕ) acc =>
        ((List.range m.width).map
          (fun (x : ℕ) => ((x : ℤ), (y : ℤ)))) ++ acc) []) ↔
      (∃ y : ℕ, y ∈ l ∧ ∃ x : ℕ, x ∈ List.range m.width ∧
        p = ((x : ℤ), (y : ℤ))) := by
    intro l
    induction l with
    | nil => simp
    | cons y l' ihl =>
      rw [List.foldr_cons, List.mem_append, ihl]
      constructor
      · intro h
        rcases h with h | ⟨y', hy', x, hx, rfl⟩
        · rcases List.mem_map.mp h with ⟨x, hx, rfl⟩
          exact ⟨y, List.mem_cons_self y l', x, hx, rfl⟩
        · exact ⟨y', List.mem_cons_of_mem _ hy', x, hx, rfl⟩
      · rintro ⟨y', hy', x, hx, rfl⟩
        rcases List.mem_cons.mp hy' with rfl | hy'
        · exact Or.inl (List.mem_map.mpr ⟨x, hx, rfl⟩)
        · exact Or.inr ⟨y', hy', x, hx, rfl⟩
  rw [key]
  unfold inB
  constructor
  · rintro ⟨y, hy, x, hx, rfl⟩
    rw [List.mem_range] at hy hx
    refine ⟨Int.ofNat_nonneg x, ?_, Int.ofNat_nonneg y, ?_⟩
    · show (x : ℤ) < (m.width : ℤ)
      exact_mod_cast hx
    · show (y : ℤ) < (m.height : ℤ)
      exact_mod_cast hy
  · rintro ⟨h1, h2, h3, h4⟩
    refine ⟨p.2.toNat, ?_, p.1.toNat, ?_, ?_⟩
    · rw [List.mem_range]; omega
    · rw [List.mem_range]; omega
    · obtain ⟨a, b⟩ := p
      simp only [Prod.mk.injEq]
      simp only at h1 h2 h3 h4
      constructor <;> omega

/-- Everything `detect_rooms` guarantees: every output area is a
duplicate-free enumeration of one free-space component of size strictly
above `min_room_size`, distinct areas are disjoint, and every free-space
component of size strictly above `min_room_size` appears. -/
theorem detect_rooms_master (m : RawMap) (k : Nat) :
    (∀ A ∈ detect_rooms m k, A.Nodup ∧ k < A.length ∧
      ∃ s₀, goodCell m 0 s₀ ∧ ∀ p, p ∈ A ↔ Reach m 0 s₀ p) ∧
    (detect_rooms m k).Pairwise (fun A B => ∀ p ∈ A, p ∉ B) ∧
    (∀ s A, goodCell m 0 s → Enumerates m s A → k < A.length →
      ∃ B ∈ detect_rooms m k, ∀ p, p ∈ B ↔ Reach m 0 s p) := by
  have hInv₀ : ScanInv m k (∅, []) :=
    { vis_closed := by intro a ha; exact absurd ha (Finset.not_mem_empty a)
      areas_prop := by intro A hA; exact absurd hA (List.not_mem_nil A)
      areas_disj := List.Pairwise.nil
      vis_comp := by intro q hq; exact absurd hq (Finset.not_mem_empty q) }
  obtain ⟨hInv, _, _, hall⟩ :=
    scan_foldl_spec m k (rowMajorCells m) (∅, []) hInv₀
  have hperm : (detect_rooms m k).Perm
      ((rowMajorCells m).foldl (detectStep m k) (∅, [])).2 := by
    unfold detect_rooms
    exact List.mergeSort_perm _ _
  refine ⟨?_, ?_, ?_⟩
  · intro A hA
    obtain ⟨h1, h2, h3, _⟩ := hInv.areas_prop A (hperm.mem_iff.mp hA)
    exact ⟨h1, h2, h3⟩
  · exact (hperm.pairwise_iff
      (fun hAB p hpB hpA => hAB p hpA hpB)).mpr hInv.areas_disj
  · intro s A hgood henum hlen
    have hs_vis : s ∈ ((rowMajorCells m).foldl (detectStep m k) (∅, [])).1 :=
      hall s ((mem_rowMajorCells m s).mpr hgood.1) hgood
    rcases hInv.vis_comp s hs_vis with ⟨B, hB, hBs⟩ | hsmall
    · exact ⟨B, hperm.mem_iff.mpr hB, hBs⟩
    · exact absurd (hsmall A henum) (by omega)

/-- A flood fill from a free seed over a fresh visited matrix enumerates
the seed's whole component. -/
theorem flood_fill_enumerates (m : RawMap) (x y : ℤ)
    (hfree : goodCell m 0 (x, y)) :
    Enumerates m (x, y) (flood_fill m x y 0 ∅).1 := by
  obtain ⟨hnd, hmem, _⟩ :=
    flood_fill_spec m 0 ∅ x y hfree (Finset.not_mem_empty _)
  refine ⟨hnd, fun p => ?_⟩
  rw [hmem p]
  exact ⟨reachAvoid_reach,
    reach_of_closed (fun a ha => absurd ha (Finset.not_mem_empty a)) hfree
      (Finset.not_mem_empty _)⟩

/-- C10: calling `flood_fill` with a seed that is out of bounds, already
visited, or whose cell value differs from the target returns the empty
pixel list and leaves the visited matrix entirely unchanged. -/
theorem flood_fill_early_exit (m : RawMap) (x y : ℤ) (target : Nat)
    (visited : Finset (ℤ × ℤ))
    (h : x < 0 ∨ y < 0 ∨ (m.width : ℤ) ≤ x ∨ (m.height : ℤ) ≤ y ∨
      (x, y) ∈ visited ∨ m.cell y x ≠ target) :
    (flood_fill m x y target visited).1 = [] ∧
    (flood_fill m x y target visited).2 = visited := by
  rw [flood_fill_guard m x y target visited h]
  exact ⟨rfl, rfl⟩

theorem flood_fill_early_exit_witness :
    (flood_fill ⟨1, 1, fun _ _ => 5⟩ 0 0 0 ∅).1 = [] ∧
    (flood_fill ⟨1, 1, fun _ _ => 5⟩ 0 0 0 ∅).2 = ∅ :=
  flood_fill_early_exit ⟨1, 1, fun _ _ => 5⟩ 0 0 0 ∅ (by decide)

/-- C5: a flood fill seeded at a free cell over a fresh visited matrix
returns, without duplicates, exactly the set of Free cells reachable from
the seed via 4-neighbourhood connectivity (so its size equals that
count), and within a full `detect_rooms` pass the returned areas are
pairwise disjoint and duplicate-free — no cell is collected twice across
flood fills, regardless of which seeds start the fills. -/
theorem flood_fill_component_exact (m : RawMap) (x y : ℤ) (k : Nat)
    (hfree : goodCell m 0 (x, y)) :
    ((flood_fill m x y 0 ∅).1.Nodup ∧
      ∀ p, p ∈ (flood_fill m x y 0 ∅).1 ↔ Reach m 0 (x, y) p) ∧
    ((detect_rooms m k).Pairwise (fun A B => ∀ p ∈ A, p ∉ B) ∧
      ∀ A ∈ detect_rooms m k, A.Nodup) := by
  obtain ⟨hnd, hmem⟩ := flood_fill_enumerates m x y hfree
  obtain ⟨hall, hdisj, _⟩ := detect_rooms_master m k
  exact ⟨⟨hnd, hmem⟩, hdisj, fun A hA => (hall A hA).1⟩

theorem flood_fill_component_exact_witness :
    ((flood_fill ⟨2, 1, fun _ _ => 0⟩ 0 0 0 ∅).1.Nodup ∧
      ∀ p, p ∈ (flood_fill ⟨2, 1, fun _ _ => 0⟩ 0 0 0 ∅).1 ↔
        Reach ⟨2, 1, fun _ _ => 0⟩ 0 (0, 0) p) ∧
    ((detect_rooms ⟨2, 1, fun _ _ => 0⟩ 0).Pairwise
        (fun A B => ∀ p ∈ A, p ∉ B) ∧
      ∀ A ∈ detect_rooms ⟨2, 1, fun _ _ => 0⟩ 0, A.Nodup) :=
  flood_fill_component_exact ⟨2, 1, fun _ _ => 0⟩ 0 0 0 (by decide)

set_option maxRecDepth 100000

/-- C4 counterexample: on a 10×10 all-free grid the single free component
has exactly `minRoomSize = 100` cells, yet `detect_rooms` with the default
threshold excludes it — the filter keeps only areas strictly larger than
`min_room_size` (`len(area) > min_room_size`), so a component of exactly
`minRoomSize` cells is *not* included. -/
theorem detect_rooms_exact_threshold_counterexample :
    detect_rooms ⟨10, 10, fun _ _ => 0⟩ 100 = [] ∧
    goodCell ⟨10, 10, fun _ _ => 0⟩ 0 (0, 0) ∧
    Enumerates ⟨10, 10, fun _ _ => 0⟩ (0, 0)
      (flood_fill ⟨10, 10, fun _ _ => 0⟩ 0 0 0 ∅).1 ∧
    (flood_fill ⟨10, 10, fun _ _ => 0⟩ 0 0 0 ∅).1.length = 100 := by
  have hscan : ((rowMajorCells ⟨10, 10, fun _ _ => 0⟩).foldl
      (detectStep ⟨10, 10, fun _ _ => 0⟩ 100) (∅, [])).2 = [] := by decide
  refine ⟨?_, by decide, ?_, by decide⟩
  · unfold detect_rooms
    rw [hscan, List.mergeSort_nil]
  · exact flood_fill_enumerates ⟨10, 10, fun _ _ => 0⟩ 0 0 (by decide)

/-- C4 amended: the filter is strict.  The segmenter's output contains no
component with area ≤ `min_room_size` (in particular none with area
< `min_room_size`), and every connected free component with area strictly
greater than `min_room_size` is included; a component of exactly
`min_room_size` cells is excluded, one of `min_room_size + 1` cells is
included. -/
theorem detect_rooms_min_size (m : RawMap) (k : Nat) :
    (∀ A ∈ detect_rooms m k, k < A.length) ∧
    (∀ s A, goodCell m 0 s → Enumerates m s A → k < A.length →
      ∃ B ∈ detect_rooms m k, ∀ p, p ∈ B ↔ Reach m 0 s p) := by
  obtain ⟨hall, _, hcompl⟩ := detect_rooms_master m k
  exact ⟨fun A hA => (hall A hA).2.1, hcompl⟩

theorem detect_rooms_min_size_witness :
    (∀ A ∈ detect_rooms ⟨2, 1, fun _ _ => 0⟩ 1, 1 < A.length) ∧
    (∃ B ∈ detect_rooms ⟨2, 1, fun _ _ => 0⟩ 1,
      ∀ p, p ∈ B ↔ Reach ⟨2, 1, fun _ _ => 0⟩ 0 (0, 0) p) := by
  obtain ⟨h1, h2⟩ := detect_rooms_min_size ⟨2, 1, fun _ _ => 0⟩ 1
  exact ⟨h1, h2 (0, 0) (flood_fill ⟨2, 1, fun _ _ => 0⟩ 0 0 0 ∅).1
    (by decide) (flood_fill_enumerates ⟨2, 1, fun _ _ => 0⟩ 0 0 (by decide))
    (by decide)⟩

/-! ### Format probing (direct_approach.py lines 13-90)

`try_grid_format(data, width, height, dtype, ...)` checks the buffer
length for the dtype's element width, then walks a fixed list of header
sizes, accepting the first whose slice fits and whose grid is not a
constant fill (`np.all(grid == grid[0, 0])`).  `process_file` tries the
dtypes in a fixed order and collects every dtype's accepted result. -/

/-- The candidate element types tried by `process_file`, in source order. -/
inductive Dtype where
  | uint8 : Dtype
  | int16 : Dtype
  | uint16 : Dtype
  | int32 : Dtype
  | float32 : Dtype
deriving DecidableEq, Repr

/-- `bytes_per_pixel` as assigned by the dtype dispatch at the top of
`try_grid_format`. -/
def bytesPerPixel : Dtype → Nat
  | .uint8 => 1
  | .int16 => 2
  | .uint16 => 2
  | .int32 => 4
  | .float32 => 4

/-- The header sizes tried, in order: `[0, 4, 8, 16, 32, 48, 64, 128]`. -/
def headerSizes : List Nat := [0, 4, 8, 16, 32, 48, 64, 128]

/-- Group a byte list into consecutive machine words of `bpp` bytes each
(the effect of `np.frombuffer` with a multi-byte dtype; two grid elements
are equal exactly when their byte groups are equal).  The fuel argument
is the list length, which suffices for any positive `bpp`. -/
def chunkifyAux (bpp : Nat) : Nat → List Nat → List (List Nat)
  | 0, _ => []
  | _, [] => []
  | fuel + 1, a :: rest =>
    ((a :: rest).take bpp) :: chunkifyAux bpp fuel ((a :: rest).drop bpp)

def chunkify (bpp : Nat) (l : List Nat) : List (List Nat) :=
  chunkifyAux bpp l.length l

/-- The degenerate-region test `np.all(grid == grid[0, 0])`: every element
equals the first one. -/
def allSame (ws : List (List Nat)) : Bool :=
  match ws with
  | [] => true
  | w :: rest => (w :: rest).all (fun v => v == w)

/-- `try_grid_format` (direct_approach.py lines 13-73): `none` models the
function's `return None`; `some hs` models returning the result dict for
header size `hs`. -/
def try_grid_format (data : List Nat) (width height : Nat) (d : Dtype) :
    Option Nat :=
  let bpp := bytesPerPixel d
  if data.length < width * height * bpp then none
  else headerSizes.find? (fun hs =>
    decide (hs + width * height * bpp ≤ data.length) &&
    ! allSame (chunkify bpp ((data.drop hs).take (width * height * bpp))))

/-- `process_file` (direct_approach.py lines 75-90): try each dtype in the
fixed order, collect the accepted `(dtype, header)` results. -/
def process_file (data : List Nat) (width height : Nat) :
    List (Dtype × Nat) :=
  [Dtype.uint8, Dtype.int16, Dtype.uint16, Dtype.int32,
    Dtype.float32].filterMap
    (fun d => (try_grid_format data width height d).map (fun hs => (d, hs)))

theorem two_mem_ne_length {data : List Nat} {a b : Nat}
    (ha : a ∈ data) (hb : b ∈ data) (hab : a ≠ b) : 2 ≤ data.length := by
  match data with
  | [] => exact absurd ha (List.not_mem_nil a)
  | [x] =>
    rw [List.mem_singleton] at ha hb
    exact absurd (ha.trans hb.symm) hab
  | x :: y :: rest => simp

theorem chunkifyAux_one (fuel : Nat) :
    ∀ l : List Nat, l.length ≤ fuel →
      chunkifyAux 1 fuel l = l.map (fun a => [a]) := by
  induction fuel with
  | zero =>
    intro l hl
    have hnil : l = [] := List.length_eq_zero.mp (Nat.le_zero.mp hl)
    subst hnil
    rfl
  | succ fuel ih =>
    intro l hl
    match l with
    | [] => rfl
    | a :: rest =>
      have hr : rest.length ≤ fuel := by
        simp only [List.length_cons] at hl
        omega
      simp only [chunkifyAux]
      rw [show (a :: rest).drop 1 = rest from rfl, ih rest hr]
      rfl

theorem chunkify_one (l : List Nat) :
    chunkify 1 l = l.map (fun a => [a]) :=
  chunkifyAux_one l.length l le_rfl

theorem allSame_map_singleton_false {l : List Nat} {a b : Nat}
    (ha : a ∈ l) (hb : b ∈ l) (hab : a ≠ b) :
    allSame (l.map (fun x => [x])) = false := by
  match l with
  | [] => exact absurd ha (List.not_mem_nil a)
  | c :: rest =>
    by_contra h
    have htrue : allSame ((c :: rest).map (fun x => [x])) = true := by
      revert h
      cases allSame ((c :: rest).map (fun x => [x])) <;> simp
    simp only [List.map_cons] at htrue
    unfold allSame at htrue
    simp only [List.all_eq_true] at htrue
    have hform : ∀ x ∈ c :: rest, x = c := by
      intro x hx
      have hmem : [x] ∈ [c] :: rest.map (fun x => [x]) := by
        rcases List.mem_cons.mp hx with rfl | hx
        · exact List.mem_cons_self _ _
        · exact List.mem_cons_of_mem _ (List.mem_map.mpr ⟨x, hx, rfl⟩)
      have hx_eq := htrue [x] hmem
      simpa using hx_eq
    exact hab ((hform a ha).trans (hform b hb).symm)

/-- C6: for a buffer of exactly `width*height` bytes containing at least
two distinct byte values, the prober resolves to header offset 0 with the
one-byte element width: `uint8` accepts header 0 (the first candidate
whose slice fits, reshapes, and is not a constant fill), every wider
element type is rejected by the length check, and the collected result
list is exactly `[(uint8, 0)]`. -/
theorem format_prober_resolves (data : List Nat) (width height : Nat)
    (hlen : data.length = width * height)
    (hdist : ∃ a ∈ data, ∃ b ∈ data, a ≠ b) :
    try_grid_format data width height Dtype.uint8 = some 0 ∧
    process_file data width height = [(Dtype.uint8, 0)] := by
  obtain ⟨a, ha, b, hb, hab⟩ := hdist
  have h2 : 2 ≤ data.length := two_mem_ne_length ha hb hab
  have hwh : 2 ≤ width * height := hlen ▸ h2
  have hu8 : try_grid_format data width height Dtype.uint8 = some 0 := by
    unfold try_grid_format
    simp only [bytesPerPixel]
    rw [if_neg (by rw [hlen]; omega)]
    unfold headerSizes
    apply List.find?_cons_of_pos
    have htake : (data.drop 0).take (width * height * 1) = data := by
      rw [List.drop_zero, Nat.mul_one, ← hlen, List.take_length]
    rw [htake, chunkify_one, allSame_map_singleton_false ha hb hab]
    simp [hlen]
  have hwide : ∀ d : Dtype, 2 ≤ bytesPerPixel d →
      try_grid_format data width height d = none := by
    intro d hd
    unfold try_grid_format
    rw [if_pos ?_]
    have hbpp : 2 ≤ bytesPerPixel d := hd
    rw [hlen]
    calc width * height < width * height * 2 := by omega
      _ ≤ width * height * bytesPerPixel d :=
          Nat.mul_le_mul_left _ hbpp
  refine ⟨hu8, ?_⟩
  unfold process_file
  simp only [List.filterMap_cons, hu8,
    hwide Dtype.int16 (by simp [bytesPerPixel]),
    hwide Dtype.uint16 (by simp [bytesPerPixel]),
    hwide Dtype.int32 (by simp [bytesPerPixel]),
    hwide Dtype.float32 (by simp [bytesPerPixel])]
  rfl

theorem format_prober_resolves_witness :
    try_grid_format [0, 1] 2 1 Dtype.uint8 = some 0 ∧
    process_file [0, 1] 2 1 = [(Dtype.uint8, 0)] :=
  format_prober_resolves [0, 1] 2 1 (by decide)
    ⟨0, by decide, 1, by decide, by decide⟩

/-! ### Orientation correction (v2_map_converter.py lines 598-608)

After compositing all layers, `create_perfect_map` applies
`combined_map.rotate(180, expand=False)` followed by
`ImageOps.mirror(...)`.  A raster is modelled as a row-major list of
rows; a 180° rotation reverses the row order and each row, a horizontal
mirror reverses each row. -/

/-- `Image.rotate(180, expand=False)`: reverse the rows and each row. -/
def rotate180 {α : Type} (img : List (List α)) : List (List α) :=
  (img.map List.reverse).reverse

/-- `ImageOps.mirror`: reverse each row (horizontal flip). -/
def himirror {α : Type} (img : List (List α)) : List (List α) :=
  img.map List.reverse

/-- The fixed orientation correction of `create_perfect_map`: first the
180° rotation, then the horizontal mirror, in source order, applied to
the fully composited image regardless of any input or configuration. -/
def orientationCorrect {α : Type} (img : List (List α)) : List (List α) :=
  himirror (rotate180 img)

/-- C7: the orientation correction is exactly the fixed composite of a
180° rotation followed by a horizontal mirror; composed, this transform
reverses the row order while leaving each row intact (a pure vertical
flip), so the pixel at row `r` of the output is row `height - 1 - r` of
the input, for every image — no other geometric transform is involved
and nothing about the image or configuration changes it. -/
theorem orientation_correction_fixed {α : Type} (img : List (List α)) :
    orientationCorrect img = himirror (rotate180 img) ∧
    orientationCorrect img = img.reverse ∧
    (∀ r, r < img.length →
      (orientationCorrect img)[r]? = img[img.length - 1 - r]?) := by
  have hvert : orientationCorrect img = img.reverse := by
    unfold orientationCorrect himirror rotate180
    rw [← List.map_reverse, List.map_map]
    have hid : (List.reverse ∘ List.reverse : List α → List α) = id := by
      funext row
      simp
    rw [hid, List.map_id]
  refine ⟨rfl, hvert, ?_⟩
  intro r hr
  rw [hvert]
  rw [List.getElem?_reverse hr]

theorem orientation_correction_fixed_witness :
    (orientationCorrect [[0, 1], [2, 3]] =
      himirror (rotate180 [[0, 1], [2, 3]]) ∧
    orientationCorrect [[0, 1], [2, 3]] = [[0, 1], [2, 3]].reverse ∧
    (∀ r, r < ([[0, 1], [2, 3]] : List (List Nat)).length →
      (orientationCorrect [[0, 1], [2, 3]])[r]? =
        [[0, 1], [2, 3]][([[0, 1], [2, 3]] : List (List Nat)).length - 1 - r]?)) :=
  orientation_correction_fixed [[0, 1], [2, 3]]

/-! ### Overlay drawing and canvas bounds (map_converter.py lines 96-135)

The charger marker paints a 7×7 square around the converted charger
pixel; polygon outlines sample each edge at `max(|dx|,|dy|)*3` parameter
values (`np.linspace(0, 1, n)`) and stamp a 3×3 square at each sample.
Every individual write is guarded by `0 <= x < width and 0 <= y < height`.
The raster is modelled as a total function on `ℤ × ℤ` so that the fate of
out-of-canvas coordinates is observable. -/

/-- A raster with unbounded coordinates; only in-canvas pixels are ever
written by the drawing code. -/
def Img : Type := ℤ → ℤ → Nat × Nat × Nat

/-- Write one pixel. -/
def setPix (img : Img) (x y : ℤ) (c : Nat × Nat × Nat) : Img :=
  fun x' y' => if x' = x ∧ y' = y then c else img x' y'

/-- `np.linspace(0, 1, n)`: `n` evenly spaced samples from 0 to 1
inclusive (`[0]` when `n = 1`, empty when `n = 0`). -/
def linspace01 (n : Nat) : List ℚ :=
  if n = 0 then []
  else if n = 1 then [0]
  else (List.range n).map (fun (k : ℕ) => (k : ℚ) / ((n : ℚ) - 1))

/-- The 3×3 stamp offsets, in the source's `dx`-outer `dy`-inner order. -/
def offsets3 : List (ℤ × ℤ) :=
  [(-1, -1), (-1, 0), (-1, 1), (0, -1), (0, 0), (0, 1),
    (1, -1), (1, 0), (1, 1)]

/-- Stamp a 3×3 square of colour `c` around `(x, y)`; each neighbour is
individually bounds-checked (map_converter.py lines 131-135). -/
def stamp3x3 (w h : ℤ) (c : Nat × Nat × Nat) (x y : ℤ) (img : Img) : Img :=
  offsets3.foldl (fun im d =>
    if 0 ≤ x + d.1 ∧ x + d.1 < w ∧ 0 ≤ y + d.2 ∧ y + d.2 < h then
      setPix im (x + d.1) (y + d.2) c
    else im) img

/-- The x-coordinate of an edge sample: `int(x1 + t * (x2 - x1))`. -/
def sampleX (p1 p2 : ℤ × ℤ) (t : ℚ) : ℤ :=
  truncQ ((p1.1 : ℚ) + t * ((p2.1 : ℚ) - (p1.1 : ℚ)))

/-- The y-coordinate of an edge sample: `int(y1 + t * (y2 - y1))`. -/
def sampleY (p1 p2 : ℤ × ℤ) (t : ℚ) : ℤ :=
  truncQ ((p1.2 : ℚ) + t * ((p2.2 : ℚ) - (p1.2 : ℚ)))

/-- Rasterise one polygon edge by parametric sampling
(map_converter.py lines 126-135): the sample count is
`max(|x2-x1|, |y2-y1|) * 3`, each sampled point is truncated with
`int()`, bounds-checked, and stamped 3×3. -/
def drawEdge (w h : ℤ) (c : Nat × Nat × Nat) (p1 p2 : ℤ × ℤ)
    (img : Img) : Img :=
  (linspace01 (max (p2.1 - p1.1).natAbs (p2.2 - p1.2).natAbs * 3)).foldl
    (fun im t =>
      if 0 ≤ sampleX p1 p2 t ∧ sampleX p1 p2 t < w ∧
          0 ≤ sampleY p1 p2 t ∧ sampleY p1 p2 t < h then
        stamp3x3 w h c (sampleX p1 p2 t) (sampleY p1 p2 t) im
      else im) img

/-- Draw the outline of a polygon with at least 3 vertices, edge `i`
joining vertex `i` to vertex `(i+1) % len` (map_converter.py 120-135). -/
def drawPolygonOutline (w h : ℤ) (c : Nat × Nat × Nat)
    (vs : List (ℤ × ℤ)) (img : Img) : Img :=
  if 3 ≤ vs.length then
    (List.range vs.length).foldl (fun im i =>
      drawEdge w h c (vs.getD i (0, 0)) (vs.getD ((i + 1) % vs.length) (0, 0))
        im) img
  else img

/-- Pixel vertices of a forbidden area: each centimeter vertex goes
through the polygon world-to-pixel transform (map_converter.py 113-117). -/
def forbidden_pixel_vertices (vertices : List (ℚ × ℚ))
    (x_min y_min resolution : ℚ) : List (ℤ × ℤ) :=
  vertices.map (fun v =>
    (polygon_pixel v.1 x_min resolution, polygon_pixel v.2 y_min resolution))

/-- Rendering one forbidden area onto the raster: transform the vertices,
then draw the red outline (map_converter.py lines 108-135). -/
def draw_forbid_area (w h : ℤ) (vertices : List (ℚ × ℚ))
    (x_min y_min resolution : ℚ) (img : Img) : Img :=
  drawPolygonOutline w h (255, 0, 0)
    (forbidden_pixel_vertices vertices x_min y_min resolution) img

/-- The charger 7×7 offsets, `dx` outer from -3 to 3, `dy` inner. -/
def chargerOffsets : List (ℤ × ℤ) :=
  (List.range 7).foldr (fun i acc =>
    ((List.range 7).map
      (fun (j : ℕ) => ((i : ℤ) - 3, (j : ℤ) - 3))) ++ acc) []

/-- Draw the red charger square (map_converter.py lines 96-103): skipped
wholesale when the centre is out of canvas, and each of the 49 pixels is
additionally bounds-checked. -/
def draw_charger (w h : ℤ) (cx cy : ℤ) (img : Img) : Img :=
  if 0 ≤ cx ∧ cx < w ∧ 0 ≤ cy ∧ cy < h then
    chargerOffsets.foldl (fun im d =>
      if 0 ≤ cx + d.1 ∧ cx + d.1 < w ∧ 0 ≤ cy + d.2 ∧ cy + d.2 < h then
        setPix im (cx + d.1) (cy + d.2) (255, 0, 0)
      else im) img
  else img

/-- A raster transformer that never changes out-of-canvas pixels. -/
def WritesInBounds (w h : ℤ) (f : Img → Img) : Prop :=
  ∀ (img : Img) (p q : ℤ), ¬ (0 ≤ p ∧ p < w ∧ 0 ≤ q ∧ q < h) →
    f img p q = img p q

theorem foldl_writesInBounds {β : Type} (w h : ℤ) (g : Img → β → Img)
    (hg : ∀ b, WritesInBounds w h (fun im => g im b)) :
    ∀ (l : List β), WritesInBounds w h (fun im => l.foldl g im) := by
  intro l
  induction l with
  | nil => intro img p q hpq; rfl
  | cons b l' ih =>
    intro img p q hpq
    simp only [List.foldl_cons]
    have hstep : List.foldl g (g img b) l' p q = g img b p q :=
      ih (g img b) p q hpq
    have hone : g img b p q = img p q := hg b img p q hpq
    exact hstep.trans hone

theorem guardedSet_wib (w h : ℤ) (c : Nat × Nat × Nat) (a b : ℤ) :
    WritesInBounds w h (fun im =>
      if 0 ≤ a ∧ a < w ∧ 0 ≤ b ∧ b < h then setPix im a b c else im) := by
  intro img p q hpq
  show (if 0 ≤ a ∧ a < w ∧ 0 ≤ b ∧ b < h then setPix img a b c else img) p q =
    img p q
  by_cases hb : 0 ≤ a ∧ a < w ∧ 0 ≤ b ∧ b < h
  · rw [if_pos hb]
    show (if p = a ∧ q = b then c else img p q) = img p q
    have hne : ¬ (p = a ∧ q = b) := by
      rintro ⟨rfl, rfl⟩
      exact hpq hb
    rw [if_neg hne]
  · rw [if_neg hb]

theorem stamp3x3_wib (w h : ℤ) (c : Nat × Nat × Nat) (x y : ℤ) :
    WritesInBounds w h (stamp3x3 w h c x y) := by
  intro img p q hpq
  unfold stamp3x3
  exact foldl_writesInBounds w h _
    (fun d => guardedSet_wib w h c (x + d.1) (y + d.2)) offsets3 img p q hpq

theorem drawEdge_wib (w h : ℤ) (c : Nat × Nat × Nat) (p1 p2 : ℤ × ℤ) :
    WritesInBounds w h (drawEdge w h c p1 p2) := by
  intro img p q hpq
  unfold drawEdge
  refine foldl_writesInBounds w h _ ?_ _ img p q hpq
  intro t img' p' q' hpq'
  by_cases hb : 0 ≤ sampleX p1 p2 t ∧ sampleX p1 p2 t < w ∧
      0 ≤ sampleY p1 p2 t ∧ sampleY p1 p2 t < h
  · simp only [if_pos hb]
    exact stamp3x3_wib w h c _ _ img' p' q' hpq'
  · simp only [if_neg hb]

theorem drawPolygonOutline_wib (w h : ℤ) (c : Nat × Nat × Nat)
    (vs : List (ℤ × ℤ)) : WritesInBounds w h (drawPolygonOutline w h c vs) := by
  intro img p q hpq
  unfold drawPolygonOutline
  by_cases h3 : 3 ≤ vs.length
  · rw [if_pos h3]
    exact foldl_writesInBounds w h _
      (fun i => drawEdge_wib w h c _ _) (List.range vs.length) img p q hpq
  · rw [if_neg h3]

theorem draw_forbid_area_wib (w h : ℤ) (vertices : List (ℚ × ℚ))
    (x_min y_min resolution : ℚ) :
    WritesInBounds w h (draw_forbid_area w h vertices x_min y_min resolution) :=
  fun img p q hpq => drawPolygonOutline_wib w h (255, 0, 0)
    (forbidden_pixel_vertices vertices x_min y_min resolution) img p q hpq

theorem draw_charger_wib (w h cx cy : ℤ) :
    WritesInBounds w h (draw_charger w h cx cy) := by
  intro img p q hpq
  unfold draw_charger
  by_cases hc : 0 ≤ cx ∧ cx < w ∧ 0 ≤ cy ∧ cy < h
  · rw [if_pos hc]
    exact foldl_writesInBounds w h _
      (fun d => guardedSet_wib w h (255, 0, 0) (cx + d.1) (cy + d.2))
      chargerOffsets img p q hpq
  · rw [if_neg hc]

theorem foldl_id_of_fixed {β : Type} (g : Img → β → Img) (l : List β)
    (hg : ∀ b ∈ l, ∀ im, g im b = im) : ∀ img : Img, l.foldl g img = img := by
  induction l with
  | nil => intro img; rfl
  | cons b l' ih =>
    intro img
    simp only [List.foldl_cons]
    rw [hg b (List.mem_cons_self b l') img]
    exact ih (fun b' hb' => hg b' (List.mem_cons_of_mem _ hb')) img

theorem linspace01_mem_bounds {n : Nat} {t : ℚ} (ht : t ∈ linspace01 n) :
    0 ≤ t ∧ t ≤ 1 := by
  unfold linspace01 at ht
  by_cases h0 : n = 0
  · rw [if_pos h0] at ht
    exact absurd ht (List.not_mem_nil t)
  · rw [if_neg h0] at ht
    by_cases h1 : n = 1
    · rw [if_pos h1, List.mem_singleton] at ht
      subst ht
      norm_num
    · rw [if_neg h1] at ht
      obtain ⟨k, hk, rfl⟩ := List.mem_map.mp ht
      rw [List.mem_range] at hk
      have hn2 : 2 ≤ n := by omega
      have hpos : (0 : ℚ) < (n : ℚ) - 1 := by
        have hc : (2 : ℚ) ≤ (n : ℚ) := by exact_mod_cast hn2
        linarith
      constructor
      · positivity
      · rw [div_le_one hpos]
        have hk1 : k + 1 ≤ n := hk
        have hc : ((k : ℚ) + 1) ≤ (n : ℚ) := by exact_mod_cast hk1
        linarith

theorem sampleX_ge {w : ℤ} (hw : 0 ≤ w) {p1 p2 : ℤ × ℤ} {t : ℚ}
    (h1 : w + 1 ≤ p1.1) (h2 : w + 1 ≤ p2.1) (ht0 : 0 ≤ t) (ht1 : t ≤ 1) :
    w + 1 ≤ sampleX p1 p2 t := by
  have ha : ((w : ℚ) + 1) ≤ (p1.1 : ℚ) := by exact_mod_cast h1
  have hb : ((w : ℚ) + 1) ≤ (p2.1 : ℚ) := by exact_mod_cast h2
  have hq : ((w : ℚ) + 1) ≤ (p1.1 : ℚ) + t * ((p2.1 : ℚ) - (p1.1 : ℚ)) := by
    nlinarith [mul_nonneg ht0 (sub_nonneg.mpr hb),
      mul_nonneg (sub_nonneg.mpr ht1) (sub_nonneg.mpr ha)]
  have hw1 : (0 : ℚ) ≤ (w : ℚ) + 1 := by
    have hc : (0 : ℚ) ≤ (w : ℚ) := by exact_mod_cast hw
    linarith
  unfold sampleX truncQ
  rw [if_pos (by linarith)]
  rw [Int.le_floor]
  push_cast
  linarith

theorem drawEdge_outside (w h : ℤ) (hw : 0 ≤ w) (c : Nat × Nat × Nat)
    (p1 p2 : ℤ × ℤ) (h1 : w + 1 ≤ p1.1) (h2 : w + 1 ≤ p2.1) (img : Img) :
    drawEdge w h c p1 p2 img = img := by
  unfold drawEdge
  apply foldl_id_of_fixed
  intro t ht im
  obtain ⟨ht0, ht1⟩ := linspace01_mem_bounds ht
  rw [if_neg ?_]
  rintro ⟨-, hlt, -, -⟩
  have := sampleX_ge hw h1 h2 ht0 ht1
  omega

theorem drawPolygonOutline_outside (w h : ℤ) (hw : 0 ≤ w)
    (c : Nat × Nat × Nat) (vs : List (ℤ × ℤ))
    (hvs : ∀ v ∈ vs, w + 1 ≤ v.1) (img : Img) :
    drawPolygonOutline w h c vs img = img := by
  unfold drawPolygonOutline
  by_cases h3 : 3 ≤ vs.length
  · rw [if_pos h3]
    apply foldl_id_of_fixed
    intro i hi im
    rw [List.mem_range] at hi
    have hlen : 0 < vs.length := by omega
    have hmod : (i + 1) % vs.length < vs.length := Nat.mod_lt _ hlen
    apply drawEdge_outside w h hw
    · rw [List.getD_eq_getElem vs (0, 0) hi]
      exact hvs _ (List.getElem_mem hi)
    · rw [List.getD_eq_getElem vs (0, 0) hmod]
      exact hvs _ (List.getElem_mem hmod)
  · rw [if_neg h3]

theorem draw_forbid_area_outside (w h : ℤ) (hw : 0 ≤ w)
    (vertices : List (ℚ × ℚ)) (x_min y_min resolution : ℚ)
    (hvs : ∀ v ∈ forbidden_pixel_vertices vertices x_min y_min resolution,
      w + 1 ≤ v.1) (img : Img) :
    draw_forbid_area w h vertices x_min y_min resolution img = img :=
  drawPolygonOutline_outside w h hw (255, 0, 0) _ hvs img

/-- A raster transformer that writes only colour `c` wherever it writes. -/
def OnlyWrites (c : Nat × Nat × Nat) (f : Img → Img) : Prop :=
  ∀ (img : Img) (p q : ℤ), f img p q = img p q ∨ f img p q = c

theorem onlyWrites_foldl {β : Type} (c : Nat × Nat × Nat)
    (g : Img → β → Img) (hg : ∀ b, OnlyWrites c (fun im => g im b)) :
    ∀ l : List β, OnlyWrites c (fun im => l.foldl g im) := by
  intro l
  induction l with
  | nil => intro img p q; exact Or.inl rfl
  | cons b l' ih =>
    intro img p q
    simp only [List.foldl_cons]
    have hih : List.foldl g (g img b) l' p q = g img b p q ∨
        List.foldl g (g img b) l' p q = c := ih (g img b) p q
    have hone : g img b p q = img p q ∨ g img b p q = c := hg b img p q
    rcases hih with h | h
    · rcases hone with h' | h'
      · exact Or.inl (h.trans h')
      · exact Or.inr (h.trans h')
    · exact Or.inr h

theorem onlyWrites_preserve {c : Nat × Nat × Nat} {f : Img → Img}
    (h : OnlyWrites c f) {img : Img} {p q : ℤ} (hc : img p q = c) :
    f img p q = c := by
  rcases h img p q with h' | h'
  · exact h'.trans hc
  · exact h'

theorem guardedSet_onlyWrites (w h : ℤ) (c : Nat × Nat × Nat) (a b : ℤ) :
    OnlyWrites c (fun im =>
      if 0 ≤ a ∧ a < w ∧ 0 ≤ b ∧ b < h then setPix im a b c else im) := by
  intro img p q
  show (if 0 ≤ a ∧ a < w ∧ 0 ≤ b ∧ b < h then setPix img a b c else img) p q =
      img p q ∨
    (if 0 ≤ a ∧ a < w ∧ 0 ≤ b ∧ b < h then setPix img a b c else img) p q = c
  by_cases hb : 0 ≤ a ∧ a < w ∧ 0 ≤ b ∧ b < h
  · by_cases hpq : p = a ∧ q = b
    · right
      rw [if_pos hb]
      show (if p = a ∧ q = b then c else img p q) = c
      rw [if_pos hpq]
    · left
      rw [if_pos hb]
      show (if p = a ∧ q = b then c else img p q) = img p q
      rw [if_neg hpq]
  · left
    rw [if_neg hb]

theorem stamp3x3_onlyWrites (w h : ℤ) (c : Nat × Nat × Nat) (x y : ℤ) :
    OnlyWrites c (stamp3x3 w h c x y) := by
  intro img p q
  unfold stamp3x3
  exact onlyWrites_foldl c _
    (fun d => guardedSet_onlyWrites w h c (x + d.1) (y + d.2))
    offsets3 img p q

theorem edgeStep_onlyWrites (w h : ℤ) (c : Nat × Nat × Nat)
    (p1 p2 : ℤ × ℤ) (t : ℚ) :
    OnlyWrites c (fun im =>
      if 0 ≤ sampleX p1 p2 t ∧ sampleX p1 p2 t < w ∧
          0 ≤ sampleY p1 p2 t ∧ sampleY p1 p2 t < h then
        stamp3x3 w h c (sampleX p1 p2 t) (sampleY p1 p2 t) im
      else im) := by
  intro img p q
  by_cases hb : 0 ≤ sampleX p1 p2 t ∧ sampleX p1 p2 t < w ∧
      0 ≤ sampleY p1 p2 t ∧ sampleY p1 p2 t < h
  · simp only [if_pos hb]
    exact stamp3x3_onlyWrites w h c _ _ img p q
  · left
    simp only [if_neg hb]

theorem drawEdge_onlyWrites (w h : ℤ) (c : Nat × Nat × Nat)
    (p1 p2 : ℤ × ℤ) : OnlyWrites c (drawEdge w h c p1 p2) := by
  intro img p q
  unfold drawEdge
  exact onlyWrites_foldl c _ (edgeStep_onlyWrites w h c p1 p2) _ img p q

theorem foldl_preserve {β : Type} (c : Nat × Nat × Nat)
    (g : Img → β → Img) (hg : ∀ b, OnlyWrites c (fun im => g im b)) :
    ∀ (l : List β) (img : Img) (p q : ℤ), img p q = c →
      l.foldl g img p q = c := by
  intro l
  induction l with
  | nil => intro img p q hc; exact hc
  | cons b l' ih =>
    intro img p q hc
    simp only [List.foldl_cons]
    exact ih (g img b) p q (onlyWrites_preserve (hg b) hc)

/-- If some step of a fold paints `(p, q)` with `c` and all later steps
write nothing but `c`, the final raster holds `c` at `(p, q)`. -/
theorem foldl_paint {β : Type} (c : Nat × Nat × Nat) (g : Img → β → Img)
    (l₁ l₂ : List β) (t : β) (p q : ℤ)
    (hpaint : ∀ im : Img, g im t p q = c)
    (hkeep : ∀ b, OnlyWrites c (fun im => g im b)) :
    ∀ img : Img, (l₁ ++ t :: l₂).foldl g img p q = c := by
  intro img
  rw [List.foldl_append]
  simp only [List.foldl_cons]
  exact foldl_preserve c g hkeep l₂ _ p q (hpaint _)


theorem counterexample_vertices_eval :
    forbidden_pixel_vertices [((-100 : ℚ), (0 : ℚ)), (200, 0), (200, 100)]
      0 0 1 = [(-1, 0), (2, 0), (2, 1)] := by
  norm_num [forbidden_pixel_vertices, polygon_pixel, truncQ, Int.ceil_neg]

theorem linspace01_nine :
    linspace01 9 = [0, 1/8, 1/4, 3/8, 1/2, 5/8, 3/4, 7/8, 1] := by
  unfold linspace01
  norm_num [List.range_succ]

theorem stamp_paint_00 : ∀ im : Img,
    stamp3x3 2 2 (255, 0, 0) 0 0 im 0 0 = (255, 0, 0) := by
  intro im
  unfold stamp3x3 offsets3
  simp only [List.foldl_cons, List.foldl_nil]
  norm_num [setPix]

theorem edge0_draws_red : ∀ im : Img,
    drawEdge 2 2 (255, 0, 0) ((-1 : ℤ), (0 : ℤ)) ((2 : ℤ), (0 : ℤ)) im 0 0 =
      (255, 0, 0) := by
  intro im
  have hsx : sampleX ((-1 : ℤ), (0 : ℤ)) ((2 : ℤ), (0 : ℤ)) (3/8) = 0 := by
    norm_num [sampleX, truncQ]
  have hsy : sampleY ((-1 : ℤ), (0 : ℤ)) ((2 : ℤ), (0 : ℤ)) (3/8) = 0 := by
    norm_num [sampleY, truncQ]
  have hpaint : ∀ im' : Img,
      (if 0 ≤ sampleX ((-1 : ℤ), (0 : ℤ)) ((2 : ℤ), (0 : ℤ)) (3/8) ∧
          sampleX ((-1 : ℤ), (0 : ℤ)) ((2 : ℤ), (0 : ℤ)) (3/8) < 2 ∧
          0 ≤ sampleY ((-1 : ℤ), (0 : ℤ)) ((2 : ℤ), (0 : ℤ)) (3/8) ∧
          sampleY ((-1 : ℤ), (0 : ℤ)) ((2 : ℤ), (0 : ℤ)) (3/8) < 2 then
        stamp3x3 2 2 (255, 0, 0)
          (sampleX ((-1 : ℤ), (0 : ℤ)) ((2 : ℤ), (0 : ℤ)) (3/8))
          (sampleY ((-1 : ℤ), (0 : ℤ)) ((2 : ℤ), (0 : ℤ)) (3/8)) im'
      else im') 0 0 = (255, 0, 0) := by
    intro im'
    rw [hsx, hsy]
    rw [if_pos (by norm_num)]
    exact stamp_paint_00 im'
  unfold drawEdge
  have hn : linspace01
      (max (((2 : ℤ), (0 : ℤ)).1 - ((-1 : ℤ), (0 : ℤ)).1).natAbs
        (((2 : ℤ), (0 : ℤ)).2 - ((-1 : ℤ), (0 : ℤ)).2).natAbs * 3) =
      ([0, 1/8, 1/4] : List ℚ) ++ (3/8 : ℚ) :: [1/2, 5/8, 3/4, 7/8, 1] := by
    have h9 : max (((2 : ℤ), (0 : ℤ)).1 - ((-1 : ℤ), (0 : ℤ)).1).natAbs
        (((2 : ℤ), (0 : ℤ)).2 - ((-1 : ℤ), (0 : ℤ)).2).natAbs * 3 = 9 := by
      decide
    rw [h9, linspace01_nine]
    rfl
  rw [hn]
  exact foldl_paint (255, 0, 0) _ [0, 1/8, 1/4] [1/2, 5/8, 3/4, 7/8, 1]
    (3/8) 0 0 hpaint
    (edgeStep_onlyWrites 2 2 (255, 0, 0) ((-1 : ℤ), (0 : ℤ)) ((2 : ℤ), (0 : ℤ)))
    im



theorem drawPolygonOutline_paint (w h : ℤ) (c : Nat × Nat × Nat)
    (vs : List (ℤ × ℤ)) (p q : ℤ) (h3 : 3 ≤ vs.length)
    (hpaint : ∀ im : Img,
      drawEdge w h c (vs.getD 0 (0, 0)) (vs.getD (1 % vs.length) (0, 0))
        im p q = c) :
    ∀ img : Img, drawPolygonOutline w h c vs img p q = c := by
  intro img
  unfold drawPolygonOutline
  rw [if_pos h3]
  obtain ⟨n, hn⟩ : ∃ n, vs.length = n + 1 := ⟨vs.length - 1, by omega⟩
  rw [hn, List.range_succ_eq_map]
  simp only [List.foldl_cons]
  rw [← hn]
  exact foldl_preserve c _
    (fun i => drawEdge_onlyWrites w h c _ _) _ _ p q (hpaint img)

theorem counterexample_draw_red :
    draw_forbid_area 2 2 [((-100 : ℚ), (0 : ℚ)), (200, 0), (200, 100)] 0 0 1
      (fun _ _ => (255, 255, 255)) 0 0 = (255, 0, 0) := by
  unfold draw_forbid_area
  rw [counterexample_vertices_eval]
  apply drawPolygonOutline_paint 2 2 (255, 0, 0)
    [((-1 : ℤ), (0 : ℤ)), (2, 0), (2, 1)] 0 0 (by norm_num)
  intro im
  exact edge0_draws_red im

theorem forbid_area_outside_counterexample :
    (∀ v ∈ forbidden_pixel_vertices
        [((-100 : ℚ), (0 : ℚ)), (200, 0), (200, 100)] 0 0 1,
      ¬ (0 ≤ v.1 ∧ v.1 < 2 ∧ 0 ≤ v.2 ∧ v.2 < 2)) ∧
    draw_forbid_area 2 2 [((-100 : ℚ), (0 : ℚ)), (200, 0), (200, 100)] 0 0 1
      (fun _ _ => (255, 255, 255)) 0 0 ≠ (255, 255, 255) := by
  constructor
  · rw [counterexample_vertices_eval]
    decide
  · rw [counterexample_draw_red]
    decide

theorem overlay_out_of_canvas (w h : ℤ) (hw : 0 ≤ w) :
    (∀ (img : Img) (cx cy p q : ℤ),
      ¬ (0 ≤ p ∧ p < w ∧ 0 ≤ q ∧ q < h) →
      draw_charger w h cx cy img p q = img p q) ∧
    (∀ (img : Img) (vertices : List (ℚ × ℚ)) (x_min y_min resolution : ℚ)
      (p q : ℤ), ¬ (0 ≤ p ∧ p < w ∧ 0 ≤ q ∧ q < h) →
      draw_forbid_area w h vertices x_min y_min resolution img p q = img p q) ∧
    (∀ (img : Img) (vertices : List (ℚ × ℚ)) (x_min y_min resolution : ℚ),
      (∀ v ∈ forbidden_pixel_vertices vertices x_min y_min resolution,
        w + 1 ≤ v.1) →
      ∀ p q, draw_forbid_area w h vertices x_min y_min resolution img p q =
        img p q) := by
  refine ⟨?_, ?_, ?_⟩
  · intro img cx cy p q hpq
    exact draw_charger_wib w h cx cy img p q hpq
  · intro img vertices x_min y_min resolution p q hpq
    exact draw_forbid_area_wib w h vertices x_min y_min resolution img p q hpq
  · intro img vertices x_min y_min resolution hvs p q
    rw [draw_forbid_area_outside w h hw vertices x_min y_min resolution hvs img]

theorem overlay_out_of_canvas_witness :
    draw_charger 2 2 0 0 (fun _ _ => (255, 255, 255)) 5 0 =
      (255, 255, 255) ∧
    draw_forbid_area 2 2 [((300 : ℚ), (0 : ℚ)), (400, 0), (400, 100)] 0 0 1
      (fun _ _ => (255, 255, 255)) 0 0 = (255, 255, 255) := by
  have hverts : forbidden_pixel_vertices
      [((300 : ℚ), (0 : ℚ)), (400, 0), (400, 100)] 0 0 1 =
      [(3, 0), (4, 0), (4, 1)] := by
    norm_num [forbidden_pixel_vertices, polygon_pixel, truncQ]
  refine ⟨(overlay_out_of_canvas 2 2 (by decide)).1
      (fun _ _ => (255, 255, 255)) 0 0 5 0 (by decide),
    (overlay_out_of_canvas 2 2 (by decide)).2.2
      (fun _ _ => (255, 255, 255)) [((300 : ℚ), (0 : ℚ)), (400, 0), (400, 100)]
      0 0 1 ?_ 0 0⟩
  rw [hverts]
  decide

/-! ### Output phase and failure atomicity (map_converter.py lines 167-193)

`create_map_image` writes its two outputs strictly in sequence: first the
raster file (`img_resized.save(output_path)`, line 176), then the base64
sidecar (lines 180-187); the surrounding `try/except` catches any raised
I/O failure and returns `False`.  Each write is modelled as fallible: a
`SaveWorld` records which of the two writes would succeed if attempted,
and `savePhase` mirrors the source's control flow — an exception in a
write aborts the function at that point, leaving every earlier write in
place. -/

/-- Which of the two output writes would succeed if attempted. -/
structure SaveWorld where
  pngOk : Bool
  base64Ok : Bool
deriving DecidableEq, Repr

/-- Which output files exist after the call returns. -/
structure FileState where
  pngWritten : Bool
  base64Written : Bool
deriving DecidableEq, Repr

/-- The output phase of `create_map_image`: attempt the raster save (an
exception is caught and the function returns `False` with nothing
written); then attempt the sidecar write (an exception is caught and the
function returns `False`, but the raster file already exists on disk);
on success both files exist and `True` is returned. -/
def savePhase (w : SaveWorld) : FileState × Bool :=
  if ¬ w.pngOk then (⟨false, false⟩, false)
  else if ¬ w.base64Ok then (⟨true, false⟩, false)
  else (⟨true, true⟩, true)

/-- C9 counterexample: when the raster save succeeds but the sidecar
write fails, the call fails (`False`) yet the raster file has been
written — a failed call *can* leave partial output visible. -/
theorem save_phase_partial_output_counterexample :
    (savePhase ⟨true, false⟩).2 = false ∧
    (savePhase ⟨true, false⟩).1.pngWritten = true ∧
    (savePhase ⟨true, false⟩).1 ≠ ⟨false, false⟩ := by
  decide

/-- C9 amended: the call returns success exactly when both outputs were
written; the outputs appear in the fixed order raster-then-sidecar (the
sidecar is never written without the raster); a failed call never has the
sidecar written, and a call that fails before the raster save writes
nothing — but a call failing between the two writes leaves the raster
file visible. -/
theorem save_phase_ordering (w : SaveWorld) :
    ((savePhase w).2 = true ↔
      (savePhase w).1.pngWritten = true ∧
      (savePhase w).1.base64Written = true) ∧
    ((savePhase w).1.base64Written = true →
      (savePhase w).1.pngWritten = true) ∧
    ((savePhase w).2 = false → (savePhase w).1.base64Written = false) ∧
    ((savePhase w).1.pngWritten = false →
      (savePhase w).1 = ⟨false, false⟩) := by
  rcases w with ⟨p, b⟩
  cases p <;> cases b <;> simp [savePhase]

theorem save_phase_ordering_witness :
    (savePhase ⟨true, false⟩).1.base64Written = false :=
  (save_phase_ordering ⟨true, false⟩).2.2.1 (by decide)

end VacuumMap
